import Mathlib

/-! ShellGibi: the parser and dispatcher of `src/main.c`.

A shallow embedding of `parse_command`, of `process_command` as the shell
process runs it with the autocomplete helpers it calls, of the rebuild of
the argument vector in `process_command` and `execute_pipeline`, and of the
line editor `prompt` with the mode of the terminal, followed by the properties
of the specification that concern them.

Conventions of the embedding.

* A C string is the list of its characters before the terminating NUL.
* `strtok` keeps its saved pointer as the text that is still to be scanned.
* Pointers are `Option`s: `none` is `NULL`.
* Undefined behaviour that the control flow of the source reaches (calling
  `strlen` on `NULL`, scanning past the terminator of the line, writing before
  the start of a string, copying a string into an array too small for it,
  opening the directory named by an array that was not filled) is a `Fault`.
* Recursion and loops carry a bound on their iterations; the theorems
  `parse_command_terminates` and `process_command_terminates` show that the
  bound chosen by `parse_command` and `process_command` is never reached.
* The arrays of fixed size that strings are written into without a test have
  their capacity: `temp_buf[1024]`,
  `suggestion_list[1024][256]`, `cwd[250]`, `head[256]`,
  `auto_complete_command[256]` and the `buf[4096]` of the line editor. Blocks
  obtained from `malloc` are sized from the string they receive and have no
  bound.
* The keyboard is the list of the keystrokes `getchar` returns; when the list
  is used up the call of `prompt` is still waiting and has not returned.
* The contents of a block returned by `malloc` are whatever the allocator left
  there; the parser receives them as the parameter `fresh`. The struct that
  `main` passes in has been cleared with `memset`: it is `command_zero`.
-/

namespace ShellGibi

/-- A C string: its characters up to, not including, the terminator. -/
abbrev Str := List Char

/-- The double quote character. -/
def dquote : Char := Char.ofNat 34

/-- The single quote character. -/
def squote : Char := Char.ofNat 39

/-- The `enum return_codes` (main.c:17-21). -/
inductive return_codes where
  | SUCCESS
  | EXIT
  | UNKNOWN
  deriving DecidableEq, Repr

/-- The `struct command_t` (main.c:22-30). `redirects` always has the three slots
of `char *redirects[3]`. -/
structure command_t where
  name : Str
  background : Bool
  auto_complete : Bool
  arg_count : Nat
  args : List Str
  redirects : List (Option Str)
  next : Option command_t

/-- The struct after `memset(command, 0, sizeof(struct command_t))`
(main.c:371-372): every flag false, every pointer `NULL`. -/
def command_zero : command_t :=
  { name := [], background := false, auto_complete := false, arg_count := 0,
    args := [], redirects := [none, none, none], next := none }

/-- Undefined behaviour reached by the source. -/
inductive Fault where
  /-- Call of `strlen(pch)` with `pch == NULL` (main.c:188). -/
  | null_deref
  /-- The scan `while (pch[index] == ' ' ...)` runs past the terminator that
  `pch[l] = splitters[0]` has just overwritten (main.c:220-222). -/
  | past_end
  /-- The write `head[strlen(head) - 1] = 0` on an empty `head` (main.c:77, 95). -/
  | before_start
  /-- A write of a string into an array too small for it: `temp_buf[1024]`
  (main.c:204), a row of `suggestion_list[1024][256]` or a row after the last
  one (main.c:59, 70, 86), `head[256]` (main.c:546-550),
  `auto_complete_command[256]` (main.c:542, 565, 580), `buf[4096]` (main.c:355). -/
  | overflow
  /-- The call `opendir(cwd)` on the array `cwd[250]` after a `getcwd` that did
  not fill it, the path being too long (main.c:80-82). -/
  | unwritten
  deriving DecidableEq, Repr

/-- Result of running a piece of the program with a bound on the number of
loop iterations and recursive calls. -/
inductive Outcome (α : Type) where
  | done (a : α)
  | fault (f : Fault)
  | out_of_fuel

/-- Membership in `splitters = " \t"` (main.c:171), for a character of a string. -/
def is_splitter (c : Char) : Bool := c == ' ' || c == '\t'

/-- One call of `strtok(_, splitters)` on the text at the saved pointer.
`none`: only splitters remain, `strtok` returns `NULL`. Otherwise the token,
whether it was ended by a splitter (which `strtok` overwrites with NUL) rather
than by the terminator of the text, and the text after that splitter: the new
saved pointer. -/
def strtok (s : Str) : Option (Str × Bool × Str) :=
  match s.dropWhile is_splitter with
  | [] => none
  | c :: cs =>
    let tok := (c :: cs).takeWhile (fun x => !is_splitter x)
    match (c :: cs).dropWhile (fun x => !is_splitter x) with
    | [] => some (tok, false, [])
    | _ :: rest => some (tok, true, rest)

/-- The two trimming loops applied to a string (main.c:174-180 and 208-213). -/
def trim (s : Str) : Str := (s.dropWhile is_splitter).rdropWhile is_splitter

/-- Redirection detection (main.c:235-244): the index into `redirects`
(`none` for `-1`) and `arg` after the `arg++` of the `>>` case. -/
def redirect_index (arg : Str) : Option Nat × Str :=
  let r : Option Nat := if arg.head? = some '<' then some 0 else none
  if arg.head? = some '>' then
    if 1 < arg.length ∧ arg.get? 1 = some '>' then (some 2, arg.drop 1)
    else (some 1, arg)
  else (r, arg)

/-- Quote stripping of a normal argument (main.c:252-257). -/
def strip_quotes (arg : Str) : Str :=
  if 2 < arg.length ∧
      ((arg.head? = some dquote ∧ arg.getLast? = some dquote) ∨
       (arg.head? = some squote ∧ arg.getLast? = some squote))
  then arg.dropLast.drop 1
  else arg

/-- The body of the token loop for a token that is not `|` (main.c:230-260):
a lone `&` is skipped, a redirection token fills its slot of `redirects`, any
other token is appended to `args` after quote stripping. Returns the struct
and `arg_index`. -/
def parse_arg (arg : Str) (command : command_t) (arg_index : Nat) : command_t × Nat :=
  if arg = ['&'] then (command, arg_index)
  else
    match redirect_index arg with
    | (some i, arg1) =>
      ({ command with redirects := command.redirects.set i (some (arg1.drop 1)) }, arg_index)
    | (none, arg1) =>
      ({ command with args := command.args ++ [strip_quotes arg1] }, arg_index + 1)

/-- The two tests on the last character of the trimmed line (main.c:182-185):
`?` sets `auto_complete`, `&` sets `background`; the character stays in the
line. -/
def set_flags (buf : Str) (command : command_t) : command_t :=
  let command :=
    if buf.getLast? = some '?' then { command with auto_complete := true } else command
  if buf.getLast? = some '&' then { command with background := true } else command

mutual

/-- Function `parse_command` (main.c:170-264) with a bound on iterations. `fresh` is
the contents of the block `malloc` returns for a piped Command (main.c:218);
`command` is the struct the caller passes in. -/
def parse_command_aux (fresh : command_t) : Nat → Str → command_t → Outcome command_t
  | 0, _, _ => Outcome.out_of_fuel
  | fuel + 1, buf, command =>
    let buf := trim buf
    match strtok buf with
    | none => Outcome.fault Fault.null_deref
    | some (pch, _, save) =>
      parse_command_loop fresh fuel save
        { set_flags buf command with name := pch, args := [] } 0

/-- The token loop of `parse_command` (main.c:199-261) followed by
`command->arg_count = arg_index` (main.c:262). `save` is the saved pointer of
`strtok`. -/
def parse_command_loop (fresh : command_t) :
    Nat → Str → command_t → Nat → Outcome command_t
  | 0, _, _, _ => Outcome.out_of_fuel
  | fuel + 1, save, command, arg_index =>
    match strtok save with
    | none => Outcome.done { command with arg_count := arg_index }
    | some (pch, delimited, save1) =>
      -- `strcpy(arg, pch)` into `temp_buf[1024]` (main.c:198, 203-204)
      if 1024 ≤ pch.length then Outcome.fault Fault.overflow
      else
      let arg := trim pch
      if arg = [] then parse_command_loop fresh fuel save1 command arg_index
      else if arg = ['|'] then
        -- `pch[l] = splitters[0]` puts a space where the token ended
        if delimited then
          match parse_command_aux fresh fuel
              (((pch ++ ' ' :: save1).drop 1).dropWhile is_splitter) fresh with
          | Outcome.done c =>
            -- the recursive call returned after its own `strtok` gave `NULL`,
            -- so the saved pointer is on the terminator of the text
            parse_command_loop fresh fuel [] { command with next := some c } arg_index
          | Outcome.fault f => Outcome.fault f
          | Outcome.out_of_fuel => Outcome.out_of_fuel
        else
          -- the token ended on the terminator of the line, which is now a
          -- space: the scan leaves the string
          Outcome.fault Fault.past_end
      else
        parse_command_loop fresh fuel save1
          (parse_arg arg command arg_index).1 (parse_arg arg command arg_index).2

end

/-- Function `parse_command(buf, command)` (main.c:170-264): the bound on
iterations is one more than the length of the line, which is never reached
(`parse_command_terminates`). -/
def parse_command (fresh : command_t) (buf : Str) (command : command_t) :
    Outcome command_t :=
  parse_command_aux fresh (buf.length + 1) buf command

/-! ## Autocompletion and dispatch -/

/-- The test `strncmp(a, b, n) == 0` for strings without an embedded NUL. -/
def strncmp_eq (a b : Str) (n : Nat) : Bool := a.take n == b.take n

/-- What the shell sees of the operating system. -/
structure os_t where
  /-- Result of `getcwd`. -/
  getcwd : Str
  /-- Result of `opendir` then `readdir` until `NULL`: the entry names in enumeration
  order, or `none` when `opendir` fails. -/
  opendir : Str → Option (List Str)
  /-- Result of `chdir`: `none` on success, the `strerror(errno)` text on failure. -/
  chdir : Str → Option Str

/-- The globals of main.c and what the shell process has done so far. -/
structure shell_state where
  /-- The first `possible_commands_count` rows of `suggestion_list`. -/
  suggestion_list : List Str
  /-- The global `auto_complete_command`. -/
  auto_complete_command : Str
  /-- Everything written to standard output. -/
  out : Str
  /-- Number of `fork` calls. -/
  forks : Nat
  /-- Number of `wait` calls. -/
  waits : Nat
  /-- Targets passed to `chdir`, oldest first. -/
  chdirs : List Str

/-- The table `command_names` (main.c:15). -/
def command_names : List Str :=
  ["wiki".toList, "alarm".toList, "volume".toList, "myjobs".toList, "pause".toList,
   "mybg".toList, "myfg".toList, "psvis".toList]

/-- The constant `sysname` (main.c:12). -/
def sysname : Str := "shellgibi".toList

/-- The statement `strcpy(suggestion_list[possible_commands_count++], name)`
(main.c:59, 70, 86) on the array `suggestion_list[1024][256]`; `sl` is the
first `possible_commands_count` rows. Neither the row index nor the length of
the name is tested. -/
def add_suggestion (sl : List Str) (name : Str) : Outcome (List Str) :=
  if 1024 ≤ sl.length ∨ 256 ≤ name.length then Outcome.fault Fault.overflow
  else Outcome.done (sl ++ [name])

/-- The loop over the names of a directory or of `command_names`
(main.c:55-61, 68-72, 84-88): a name of which `head` is a prefix is added. -/
def scan_entries (head : Str) : List Str → List Str → Outcome (List Str)
  | [], sl => Outcome.done sl
  | d_name :: rest, sl =>
    if strncmp_eq d_name head head.length then
      match add_suggestion sl d_name with
      | Outcome.done sl1 => scan_entries head rest sl1
      | Outcome.fault f => Outcome.fault f
      | Outcome.out_of_fuel => Outcome.out_of_fuel
    else scan_entries head rest sl

/-- Function `get_possible_list` (main.c:50-64). -/
def get_possible_list (os : os_t) (head path : Str) (sl : List Str) : Outcome (List Str) :=
  match os.opendir path with
  | none => Outcome.done sl
  | some entries => scan_entries head entries sl

/-- Function `get_possible_special_list` (main.c:67-73). -/
def get_possible_special_list (head : Str) (sl : List Str) : Outcome (List Str) :=
  scan_entries head command_names sl

/-- Function `get_possible_file_list` (main.c:76-91). The call `getcwd(cwd, 250)`
fails on a path of 250 characters or more and its result is not tested. -/
def get_possible_file_list (os : os_t) (head : Str) (sl : List Str) : Outcome (List Str) :=
  if head = [] then Outcome.fault Fault.before_start
  else
    let head := head.dropLast
    if 250 ≤ os.getcwd.length then Outcome.fault Fault.unwritten
    else
      match os.opendir os.getcwd with
      | none => Outcome.done sl
      | some entries => scan_entries head entries sl

/-- One step after another: the second runs on the result of the first. -/
def Outcome.bind {α β : Type} (o : Outcome α) (f : α → Outcome β) : Outcome β :=
  match o with
  | Outcome.done a => f a
  | Outcome.fault e => Outcome.fault e
  | Outcome.out_of_fuel => Outcome.out_of_fuel

/-- Function `populate_suggestion_list` (main.c:94-105). -/
def populate_suggestion_list (os : os_t) (head : Str) (sl : List Str) : Outcome (List Str) :=
  if head = [] then Outcome.fault Fault.before_start
  else
    let head := head.dropLast
    (get_possible_list os head "/bin/".toList sl).bind fun sl =>
    (get_possible_list os head "/usr/bin/".toList sl).bind fun sl =>
    (get_possible_list os head "/usr/local/bin/".toList sl).bind fun sl =>
    (get_possible_list os head "/sbin/".toList sl).bind fun sl =>
    get_possible_special_list head sl

/-- The loop `for (i ...) { printf("%s\t", ...); if (i % 5 == 4) printf("\n"); }`
(main.c:534-539), from index `i` on. -/
def print_suggestion_loop : Nat → List Str → Str
  | _, [] => []
  | i, s :: rest =>
    s ++ ['\t'] ++ (if i % 5 = 4 then ['\n'] else []) ++ print_suggestion_loop (i + 1) rest

/-- The printing that follows each of the three completion scans
(main.c:530-541, 553-564, 568-579). -/
def print_suggestions (sl : List Str) : Str :=
  ['\n'] ++
    (if sl.length = 1 then sl.headD [] ++ ['\n']
     else print_suggestion_loop 0 sl ++ ['\n'])

/-- The call `strncpy(auto_complete_command, command->name, strlen(command->name))`
(main.c:542, 565, 580) when the name is no longer than the 256 characters of
the global: its first characters are overwritten. -/
def strncpy_name (dst name : Str) : Str := name ++ dst.drop name.length

/-- Function `process_command` (main.c:520-680) as the shell process runs it, with a
bound on the recursion along `next`. The child created by `fork` is not
followed; its argument vector is `process_command_rebuild`. -/
def process_command_aux (os : os_t) :
    Nat → command_t → shell_state → Outcome (return_codes × shell_state)
  | 0, _, _ => Outcome.out_of_fuel
  | fuel + 1, command, st =>
    if command.auto_complete then
      let st := { st with suggestion_list := [] }
      match command.next with
      | some next =>
        match process_command_aux os fuel { next with auto_complete := true } st with
        | Outcome.done r => Outcome.done (return_codes.SUCCESS, r.2)
        | Outcome.fault f => Outcome.fault f
        | Outcome.out_of_fuel => Outcome.out_of_fuel
      | none =>
        if command.arg_count = 0 ∧ command.redirects.get? 0 = some none ∧
            command.redirects.get? 1 = some none ∧ command.redirects.get? 2 = some none then
          match populate_suggestion_list os command.name st.suggestion_list with
          | Outcome.done sl =>
            -- `populate_suggestion_list` has cut the last character of the name
            if 256 < command.name.dropLast.length then Outcome.fault Fault.overflow
            else
              Outcome.done (return_codes.SUCCESS,
                { st with suggestion_list := sl, out := st.out ++ print_suggestions sl,
                          auto_complete_command :=
                            strncpy_name st.auto_complete_command command.name.dropLast })
          | Outcome.fault f => Outcome.fault f
          | Outcome.out_of_fuel => Outcome.out_of_fuel
        else if ¬ (command.redirects.get? 0 = some none ∧
            command.redirects.get? 1 = some none ∧ command.redirects.get? 2 = some none) then
          let head : Str :=
            match command.redirects.get? 0, command.redirects.get? 1,
                command.redirects.get? 2 with
            | some (some r), _, _ => r
            | _, some (some r), _ => r
            | _, _, some (some r) => r
            | _, _, _ => []
          -- `strcpy(head, command->redirects[..])` into `head[256]`
          if 256 ≤ head.length then Outcome.fault Fault.overflow
          else
            match get_possible_file_list os head st.suggestion_list with
            | Outcome.done sl =>
              if 256 < command.name.length then Outcome.fault Fault.overflow
              else
                Outcome.done (return_codes.SUCCESS,
                  { st with suggestion_list := sl, out := st.out ++ print_suggestions sl,
                            auto_complete_command :=
                              strncpy_name st.auto_complete_command command.name })
            | Outcome.fault f => Outcome.fault f
            | Outcome.out_of_fuel => Outcome.out_of_fuel
        else
          match get_possible_file_list os
              (command.args.getD (command.arg_count - 1) []) st.suggestion_list with
          | Outcome.done sl =>
            if 256 < command.name.length then Outcome.fault Fault.overflow
            else
              Outcome.done (return_codes.SUCCESS,
                { st with suggestion_list := sl, out := st.out ++ print_suggestions sl,
                          auto_complete_command :=
                            strncpy_name st.auto_complete_command command.name })
          | Outcome.fault f => Outcome.fault f
          | Outcome.out_of_fuel => Outcome.out_of_fuel
    else if command.name = [] then Outcome.done (return_codes.SUCCESS, st)
    else if command.name = "exit".toList then Outcome.done (return_codes.EXIT, st)
    else if command.name = "cd".toList ∧ 0 < command.arg_count then
      let target := command.args.getD 0 []
      let st := { st with chdirs := st.chdirs ++ [target] }
      match os.chdir target with
      | none => Outcome.done (return_codes.SUCCESS, st)
      | some err =>
        Outcome.done (return_codes.SUCCESS,
          { st with out := st.out ++ ['-'] ++ sysname ++ ": ".toList ++ command.name ++
                      ": ".toList ++ err ++ ['\n'] })
    else
      let st := { st with forks := st.forks + 1 }
      if command.background then Outcome.done (return_codes.SUCCESS, st)
      else Outcome.done (return_codes.SUCCESS, { st with waits := st.waits + 1 })

/-- Number of Commands on the chain that starts at a Command. -/
def chain_length : command_t → Nat
  | ⟨_, _, _, _, _, _, none⟩ => 1
  | ⟨_, _, _, _, _, _, some c⟩ => chain_length c + 1

/-- Function `process_command(command)` (main.c:520-680): the bound on the
recursion is the length of the chain. -/
def process_command (os : os_t) (command : command_t) (st : shell_state) :
    Outcome (return_codes × shell_state) :=
  process_command_aux os (chain_length command) command st

/-! ## The argument vector handed to `execv` -/

/-- The loop `for (i = n; i > 0; --i) args[i] = args[i - 1];`
(main.c:616-617 and 406-407), from `i` down. -/
def shift_args : Nat → List (Option Str) → List (Option Str)
  | 0, args => args
  | i + 1, args => shift_args i (args.set (i + 1) (args.getD i none))

/-- The rebuild of `command->args` in the child of `process_command`
(main.c:612-622). `junk1`, `junk2` are the contents of the two slots
`realloc` adds. Returns the new `arg_count` and array. -/
def process_command_rebuild (command : command_t) (junk1 junk2 : Option Str) :
    Nat × List (Option Str) :=
  let arg_count := command.arg_count + 2
  let args := command.args.map some ++ [junk1, junk2]
  let args := shift_args (arg_count - 2) args
  let args := args.set 0 (some command.name)
  let args := args.set (arg_count - 1) none
  (arg_count, args)

/-- The rebuild of `next->args` in `execute_pipeline` (main.c:402-411). -/
def execute_pipeline_rebuild (next : command_t) (junk1 junk2 : Option Str) :
    Nat × List (Option Str) :=
  let arg_count := next.arg_count + 2
  let args := next.args.map some ++ [junk1, junk2]
  let args := shift_args (arg_count - 2) args
  let args := args.set 0 (some next.name)
  let args := args.set (arg_count - 1) none
  (arg_count, args)


/-! ## The line editor -/

/-- The two flags of `c_lflag` that `prompt` clears (main.c:292): `ICANON`,
line-buffered input, and `ECHO`. No other setting of the terminal is touched
by the program. -/
structure termios where
  icanon : Bool
  echo : Bool
  deriving DecidableEq, Repr

/-- Function `prompt_backspace` (main.c:266-270): the three characters it prints. -/
def prompt_backspace : Str := [Char.ofNat 8, ' ', Char.ofNat 8]

/-- The way the read loop of `prompt` (main.c:302-352) is left. -/
inductive loop_end
  /-- By a `break`, with `buf[0..index)` and the output so far. -/
  | broke (buf : Str) (out : Str)
  /-- By `return EXIT` (main.c:351), with the output so far. -/
  | returned_exit (out : Str)
  /-- Not at all: `getchar` is waiting for a keystroke that has not come. -/
  | waiting
  deriving DecidableEq, Repr

/-- The read loop of `prompt` (main.c:302-352) over the keystrokes `getchar`
returns. `buf` is `buf[0..index)`, `oldbuf` the line of the previous call. -/
def prompt_loop (oldbuf : Str) : List Char → Str → Nat → Str → loop_end
  | [], _, _, _ => loop_end.waiting
  | c :: keys, buf, multicode_state, out =>
    if c = Char.ofNat 9 then loop_end.broke (buf ++ ['?']) out
    else if c = Char.ofNat 127 then
      if 0 < buf.length then
        prompt_loop oldbuf keys buf.dropLast multicode_state (out ++ prompt_backspace)
      else prompt_loop oldbuf keys buf multicode_state out
    else if c = Char.ofNat 27 ∧ multicode_state = 0 then prompt_loop oldbuf keys buf 1 out
    else if c = Char.ofNat 91 ∧ multicode_state = 1 then prompt_loop oldbuf keys buf 2 out
    else if c = Char.ofNat 65 ∧ multicode_state = 2 then
      prompt_loop oldbuf keys oldbuf multicode_state
        (out ++ (List.replicate buf.length prompt_backspace).flatten ++ oldbuf)
    else
      -- `multicode_state = 0;` then the echo and the store
      let out := out ++ [c]
      let buf := buf ++ [c]
      if 4095 ≤ buf.length then loop_end.broke buf out
      else if c = '\n' then loop_end.broke buf out
      else if c = Char.ofNat 4 then loop_end.returned_exit out
      else prompt_loop oldbuf keys buf 0 out

/-- The string a `char` array holds: the characters before the first
terminator. -/
def c_string (buf : Str) : Str := buf.takeWhile (fun c => c ≠ Char.ofNat 0)

/-- What a call of `prompt` comes to. -/
inductive prompt_outcome
  /-- Function `prompt` returned `code`; `terminal` is the mode of the terminal at
  that moment, `oldbuf` the static buffer, `out` the output, `command` the
  struct behind the pointer passed in. -/
  | returned (code : return_codes) (terminal : termios) (oldbuf : Str) (out : Str)
      (command : command_t)
  /-- The call of `parse_command`, or the write of the terminator of `buf`, has
  undefined behaviour. -/
  | fault (f : Fault)
  /-- The bound on the iterations of `parse_command` was too small. -/
  | out_of_fuel
  /-- The call is still in `getchar`. -/
  | waiting

/-- Function `prompt(command)` (main.c:278-367). `terminal` is the mode of the
terminal on entry, `show_prompt` the text `show_prompt()` prints, `oldbuf`
the string in the static buffer `oldbuf[4096]`, of 4095 characters at most,
`keys` the keystrokes `getchar` returns, in order. Both `tcgetattr` and
`tcsetattr` are taken to succeed. -/
def prompt (fresh : command_t) (show_prompt : Str) (terminal : termios) (oldbuf : Str)
    (keys : List Char) (command : command_t) : prompt_outcome :=
  let backup_termios := terminal
  let new_termios : termios := { backup_termios with icanon := false, echo := false }
  -- `tcsetattr(STDIN_FILENO, TCSANOW, &new_termios)`: the terminal is in
  -- `new_termios` from here on
  match prompt_loop oldbuf keys [] 0 show_prompt with
  | loop_end.waiting => prompt_outcome.waiting
  | loop_end.returned_exit out =>
    prompt_outcome.returned return_codes.EXIT new_termios oldbuf out command
  | loop_end.broke buf out =>
    let buf := if buf.getLast? = some '\n' then buf.dropLast else buf
    -- `buf[index++] = 0` on `buf[4096]`: after a recalled line of 4095
    -- characters and one more keystroke the terminator does not fit
    if 4096 ≤ buf.length then prompt_outcome.fault Fault.overflow
    else
      let buf := c_string buf
      match parse_command fresh buf command with
      | Outcome.done c =>
        -- `tcsetattr(STDIN_FILENO, TCSANOW, &backup_termios)`
        prompt_outcome.returned return_codes.SUCCESS backup_termios buf out c
      | Outcome.fault f => prompt_outcome.fault f
      | Outcome.out_of_fuel => prompt_outcome.out_of_fuel

/-! ## Shapes of lines -/

/-- A run of spaces and tabs. -/
def blank (s : Str) : Prop := ∀ c ∈ s, is_splitter c = true

instance (s : Str) : Decidable (blank s) :=
  inferInstanceAs (Decidable (∀ c ∈ s, is_splitter c = true))

/-- A whitespace-delimited token: non-empty, no space or tab in it. -/
def token (t : Str) : Prop := t ≠ [] ∧ ∀ c ∈ t, is_splitter c = false

instance (t : Str) : Decidable (token t) :=
  inferInstanceAs (Decidable (t ≠ [] ∧ ∀ c ∈ t, is_splitter c = false))

/-- The text of a sequence of tokens, each preceded by its separator. -/
def words : List (Str × Str) → Str
  | [] => []
  | (sep, t) :: more => sep ++ t ++ words more

/-- Every separator is a non-empty run of spaces and tabs and every token is
a token. -/
def spaced (items : List (Str × Str)) : Prop :=
  ∀ p ∈ items, (p.1 ≠ [] ∧ blank p.1) ∧ token p.2

instance (items : List (Str × Str)) : Decidable (spaced items) :=
  inferInstanceAs (Decidable (∀ p ∈ items, (p.1 ≠ [] ∧ blank p.1) ∧ token p.2))

/-- Empty, or starting with a space or tab: where a token may end. -/
def breaks (tail : Str) : Prop := ∀ c ∈ tail.head?, is_splitter c = true

/-- The token loop body applied to a sequence of tokens, none of them `|`. -/
def parse_tokens (ts : List Str) (c : command_t) (i : Nat) : command_t × Nat :=
  ts.foldl (fun s t => parse_arg t s.1 s.2) (c, i)

/-- Neither the first nor the last character is a space or tab. -/
def trimmed (s : Str) : Prop :=
  (∀ c ∈ s.head?, is_splitter c = false) ∧ (∀ c ∈ s.getLast?, is_splitter c = false)

/-- The state of the token loop once the name has been read (main.c:187-197). -/
def named (buf n : Str) (c : command_t) : command_t :=
  { set_flags buf c with name := n, args := [] }

/-- The Command the loop leaves: the struct with `arg_count` stored. -/
def finish (r : command_t × Nat) : command_t := { r.1 with arg_count := r.2 }

/-- Every token is shorter than 1024 characters: with its terminator it fits
`temp_buf[1024]`, into which the token loop copies it (main.c:198-204). -/
def fits (items : List (Str × Str)) : Prop := ∀ p ∈ items, p.2.length < 1024

instance (items : List (Str × Str)) : Decidable (fits items) :=
  inferInstanceAs (Decidable (∀ p ∈ items, p.2.length < 1024))

/-! ## Vocabulary of the claims -/

/-- Characters with a meaning to the shell: whitespace, `|`, `&`, `?`, `<`,
`>` and the two quotes. -/
def special (c : Char) : Bool :=
  is_splitter c || c == '|' || c == '&' || c == '?' || c == '<' || c == '>' ||
    c == dquote || c == squote

/-- A plain token: non-empty and without special characters. -/
def plain (t : Str) : Prop := t ≠ [] ∧ ∀ c ∈ t, special c = false

instance (t : Str) : Decidable (plain t) :=
  inferInstanceAs (Decidable (t ≠ [] ∧ ∀ c ∈ t, special c = false))

/-- Whitespace tokenisation as the specification words it: the line is cut at
every space and tab and the empty pieces are dropped. -/
def spec_tokens (line : Str) : List Str :=
  (line.splitOnP is_splitter).filter (fun t => !t.isEmpty)

/-- Quote stripping as the specification words it: a token bounded by a pair
of matching double or single quotes loses them. -/
def spec_strip_quotes (t : Str) : Str :=
  if 2 ≤ t.length ∧
      ((t.head? = some dquote ∧ t.getLast? = some dquote) ∨
       (t.head? = some squote ∧ t.getLast? = some squote))
  then t.dropLast.drop 1
  else t

/-- Quote stripping with the guard of the amended claim, worded on the shape
of the token: a quote character, a body of at least one character and the
same quote character again give the body; any other token is left as it is. -/
def spec_strip_long_quotes : Str → Str
  | [] => []
  | q :: rest =>
    if (q = dquote ∨ q = squote) ∧ 2 ≤ rest.length ∧ rest.getLast? = some q
    then rest.dropLast
    else q :: rest

/-- The redirection token for slot `k` of `redirects` with target `s`:
`<s`, `>s` or `>>s`. -/
def operator_token : Nat → Str → Str
  | 0, s => '<' :: s
  | 1, s => '>' :: s
  | _, s => '>' :: '>' :: s

/-- The rows of the listing as the specification words them: the candidates
in order, five to a row, the last row holding what is left. -/
def spec_rows : List Str → List (List Str)
  | a :: b :: c :: d :: e :: rest => [a, b, c, d, e] :: spec_rows rest
  | [] => []
  | short => [short]

/-- The text of one row: every candidate followed by a tab, and a newline
after the row when it holds five candidates. -/
def spec_row_text (row : List Str) : Str :=
  (row.map (fun s => s ++ ['\t'])).flatten ++ (if row.length = 5 then ['\n'] else [])

/-- The text of the listing: the rows one after the other. -/
def spec_listing (sl : List Str) : Str :=
  ((spec_rows sl).map spec_row_text).flatten

/-- A keystroke that the read loop stores and goes on from: not a tab, a
backspace, an escape, a newline or the end-of-transmission character. -/
def ordinary_key (c : Char) : Prop :=
  c ≠ Char.ofNat 9 ∧ c ≠ Char.ofNat 127 ∧ c ≠ Char.ofNat 27 ∧ c ≠ '\n' ∧ c ≠ Char.ofNat 4

instance (c : Char) : Decidable (ordinary_key c) :=
  inferInstanceAs (Decidable (c ≠ Char.ofNat 9 ∧ c ≠ Char.ofNat 127 ∧ c ≠ Char.ofNat 27 ∧
    c ≠ '\n' ∧ c ≠ Char.ofNat 4))

/-- A token that the loop appends to `args` as it is. -/
def kept (t : Str) : Prop :=
  token t ∧ t ≠ ['|'] ∧ t ≠ ['&'] ∧ t.head? ≠ some '<' ∧ t.head? ≠ some '>' ∧
    strip_quotes t = t

/-- The state of the loop after the tokens `ts` of a Command named `n`, flags
aside. -/
def tokens_result (n : Str) (ts : List Str) (c : command_t) : command_t :=
  finish (parse_tokens ts { c with name := n, args := [] } 0)

theorem dropWhile_head_false {α : Type} (p : α → Bool) :
    ∀ (l : List α) (c : α) (cs : List α), l.dropWhile p = c :: cs → p c = false := by
  intro l
  induction l with
  | nil => intro c cs h; simp at h
  | cons a l ih =>
    intro c cs h
    by_cases ha : p a = true
    · rw [List.dropWhile_cons_of_pos ha] at h
      exact ih c cs h
    · rw [List.dropWhile_cons_of_neg ha] at h
      injection h with h1 h2
      subst h1
      simpa using ha

theorem strtok_blank {s : Str} (h : blank s) : strtok s = none := by
  have h1 : s.dropWhile is_splitter = [] := by
    rw [List.dropWhile_eq_nil_iff]
    exact h
  simp [strtok, h1]

theorem strtok_skip_blank {pre : Str} (h : blank pre) (x : Str) :
    strtok (pre ++ x) = strtok x := by
  unfold strtok
  rw [List.dropWhile_append_of_pos h]

theorem token_dropWhile {t : Str} (ht : token t) (x : Str) :
    (t ++ x).dropWhile is_splitter = t ++ x := by
  obtain ⟨hne, hall⟩ := ht
  cases t with
  | nil => exact absurd rfl hne
  | cons c cs =>
    have hc : is_splitter c = false := hall c (List.mem_cons_self _ _)
    simp [hc]

theorem strtok_of_start {s u : Str} (hu : s.dropWhile is_splitter = u) (hne : u ≠ []) :
    strtok s =
      match u.dropWhile (fun x => !is_splitter x) with
      | [] => some (u.takeWhile (fun x => !is_splitter x), false, [])
      | _ :: rest => some (u.takeWhile (fun x => !is_splitter x), true, rest) := by
  subst hu
  unfold strtok
  cases h : s.dropWhile is_splitter with
  | nil => exact absurd h hne
  | cons c cs => rfl

theorem strtok_token_end {t : Str} (ht : token t) :
    strtok t = some (t, false, []) := by
  have h0 := token_dropWhile ht []
  simp only [List.append_nil] at h0
  have h1 : t.takeWhile (fun x => !is_splitter x) = t := by
    rw [List.takeWhile_eq_self_iff]
    intro x hx
    simp [ht.2 x hx]
  have h2 : t.dropWhile (fun x => !is_splitter x) = [] := by
    rw [List.dropWhile_eq_nil_iff]
    intro x hx
    simp [ht.2 x hx]
  rw [strtok_of_start h0 ht.1, h2, h1]

theorem strtok_token_sep {t : Str} (ht : token t) {w : Char} (hw : is_splitter w = true)
    (rest : Str) : strtok (t ++ w :: rest) = some (t, true, rest) := by
  have h0 := token_dropWhile ht (w :: rest)
  have hall1 : ∀ x ∈ t, (fun x => !is_splitter x) x = true := by
    intro x hx
    simp [ht.2 x hx]
  have h1 : (t ++ w :: rest).takeWhile (fun x => !is_splitter x) = t := by
    rw [List.takeWhile_append_of_pos hall1]
    simp [hw]
  have h2 : (t ++ w :: rest).dropWhile (fun x => !is_splitter x) = w :: rest := by
    rw [List.dropWhile_append_of_pos hall1]
    simp [hw]
  have hne : t ++ w :: rest ≠ [] := by simp
  rw [strtok_of_start h0 hne, h2, h1]

/-- What `strtok` returns is a token, and the token, the splitter that ended
it and the new saved text all lie inside the old text. -/
theorem strtok_some {s t r : Str} {d : Bool} (h : strtok s = some (t, d, r)) :
    token t ∧ t.length + r.length + (if d then 1 else 0) ≤ s.length := by
  have hsuf : (s.dropWhile is_splitter).length ≤ s.length :=
    (List.dropWhile_sublist is_splitter).length_le
  cases hu : s.dropWhile is_splitter with
  | nil =>
    unfold strtok at h
    rw [hu] at h
    simp at h
  | cons c cs =>
    rw [strtok_of_start hu (by simp)] at h
    rw [hu] at hsuf
    have hc : is_splitter c = false := dropWhile_head_false is_splitter s c cs hu
    have hsplit := List.takeWhile_append_dropWhile (fun x => !is_splitter x) (c :: cs)
    have htok : token ((c :: cs).takeWhile (fun x => !is_splitter x)) := by
      constructor
      · simp [List.takeWhile_cons, hc]
      · intro x hx
        have := List.mem_takeWhile_imp hx
        simpa using this
    have hlen := congrArg List.length hsplit
    rw [List.length_append] at hlen
    cases hv : (c :: cs).dropWhile (fun x => !is_splitter x) with
    | nil =>
      rw [hv] at h hlen
      simp only [Option.some.injEq, Prod.mk.injEq] at h
      obtain ⟨h1, h2, h3⟩ := h
      subst h1 h2 h3
      refine ⟨htok, ?_⟩
      simp only [List.length_nil] at hlen ⊢
      simp only [Bool.false_eq_true, if_false]
      omega
    | cons w rest =>
      rw [hv] at h hlen
      simp only [Option.some.injEq, Prod.mk.injEq] at h
      obtain ⟨h1, h2, h3⟩ := h
      subst h1 h2 h3
      refine ⟨htok, ?_⟩
      simp only [List.length_cons] at hlen hsuf ⊢
      simp only [if_true]
      omega

theorem trim_length_le (s : Str) : (trim s).length ≤ s.length := by
  unfold trim
  have h1 : ((s.dropWhile is_splitter).rdropWhile is_splitter).length
      ≤ (s.dropWhile is_splitter).length :=
    (List.rdropWhile_prefix is_splitter (s.dropWhile is_splitter)).length_le
  have h2 : (s.dropWhile is_splitter).length ≤ s.length :=
    (List.dropWhile_sublist is_splitter).length_le
  omega

theorem trim_token {t : Str} (ht : token t) : trim t = t := by
  unfold trim
  have h0 := token_dropWhile ht []
  simp only [List.append_nil] at h0
  rw [h0, List.rdropWhile_eq_self_iff]
  intro hl
  have := ht.2 _ (List.getLast_mem hl)
  simp [this]

/-! ## One step of the token loop -/

theorem parse_command_loop_none (fresh : command_t) (f : Nat) {save : Str}
    (h : strtok save = none) (c : command_t) (i : Nat) :
    parse_command_loop fresh (f + 1) save c i = Outcome.done { c with arg_count := i } := by
  rw [parse_command_loop, h]

theorem parse_command_loop_arg (fresh : command_t) (f : Nat) {save t save1 : Str} {d : Bool}
    (h : strtok save = some (t, d, save1)) (hp : t ≠ ['|']) (hfit : t.length < 1024)
    (c : command_t) (i : Nat) :
    parse_command_loop fresh (f + 1) save c i =
      parse_command_loop fresh f save1 (parse_arg t c i).1 (parse_arg t c i).2 := by
  have ht := (strtok_some h).1
  rw [parse_command_loop, h]
  simp only [trim_token ht, if_neg ht.1, if_neg hp, if_neg (Nat.not_le.mpr hfit)]

/-- A token of 1024 characters or more does not fit `temp_buf`. -/
theorem parse_command_loop_long (fresh : command_t) (f : Nat) {save t save1 : Str} {d : Bool}
    (h : strtok save = some (t, d, save1)) (hlong : 1024 ≤ t.length)
    (c : command_t) (i : Nat) :
    parse_command_loop fresh (f + 1) save c i = Outcome.fault Fault.overflow := by
  rw [parse_command_loop, h]
  simp only [if_pos hlong]

theorem parse_command_loop_pipe (fresh : command_t) (f : Nat) {save save1 : Str}
    (h : strtok save = some (['|'], true, save1)) (c : command_t) (i : Nat) :
    parse_command_loop fresh (f + 1) save c i =
      match parse_command_aux fresh f (save1.dropWhile is_splitter) fresh with
      | Outcome.done c1 => parse_command_loop fresh f [] { c with next := some c1 } i
      | Outcome.fault e => Outcome.fault e
      | Outcome.out_of_fuel => Outcome.out_of_fuel := by
  have ht := (strtok_some h).1
  rw [parse_command_loop, h]
  simp only [trim_token ht]
  rw [if_neg (by decide)]
  simp [is_splitter]

theorem parse_command_loop_pipe_end (fresh : command_t) (f : Nat) {save save1 : Str}
    (h : strtok save = some (['|'], false, save1)) (c : command_t) (i : Nat) :
    parse_command_loop fresh (f + 1) save c i = Outcome.fault Fault.past_end := by
  have ht := (strtok_some h).1
  rw [parse_command_loop, h]
  simp only [trim_token ht]
  rw [if_neg (by decide)]
  simp

/-! ## The bound on iterations is never reached -/

theorem parse_command_fuel (fresh : command_t) :
    ∀ f1 : Nat,
      (∀ (f2 : Nat) (buf : Str) (c : command_t), buf.length < f1 → buf.length < f2 →
        parse_command_aux fresh f1 buf c = parse_command_aux fresh f2 buf c) ∧
      (∀ (f2 : Nat) (save : Str) (c : command_t) (i : Nat),
        save.length < f1 → save.length < f2 →
        parse_command_loop fresh f1 save c i = parse_command_loop fresh f2 save c i) := by
  intro f1
  induction f1 with
  | zero => exact ⟨fun _ _ _ h => absurd h (Nat.not_lt_zero _),
                   fun _ _ _ _ h => absurd h (Nat.not_lt_zero _)⟩
  | succ f1 ih =>
    obtain ⟨ihA, ihL⟩ := ih
    constructor
    · intro f2 buf c h1 h2
      obtain ⟨g2, rfl⟩ : ∃ g, f2 = g + 1 := ⟨f2 - 1, by omega⟩
      rw [parse_command_aux, parse_command_aux]
      have htl := trim_length_le buf
      cases hs : strtok (trim buf) with
      | none => rfl
      | some r =>
        obtain ⟨t, d, save⟩ := r
        have hlen := (strtok_some hs).2
        have htok := (strtok_some hs).1
        have htpos : 0 < t.length := List.length_pos.mpr htok.1
        simp only []
        apply ihL <;> omega
    · intro f2 save c i h1 h2
      obtain ⟨g2, rfl⟩ : ∃ g, f2 = g + 1 := ⟨f2 - 1, by omega⟩
      cases hs : strtok save with
      | none => rw [parse_command_loop_none fresh f1 hs, parse_command_loop_none fresh g2 hs]
      | some r =>
        obtain ⟨t, d, save1⟩ := r
        have hlen := (strtok_some hs).2
        have htok := (strtok_some hs).1
        have htpos : 0 < t.length := List.length_pos.mpr htok.1
        by_cases hp : t = ['|']
        · subst hp
          cases d with
          | false =>
            rw [parse_command_loop_pipe_end fresh f1 hs, parse_command_loop_pipe_end fresh g2 hs]
          | true =>
            rw [parse_command_loop_pipe fresh f1 hs, parse_command_loop_pipe fresh g2 hs]
            simp only [if_true] at hlen
            have hd : (save1.dropWhile is_splitter).length ≤ save1.length :=
              (List.dropWhile_sublist is_splitter).length_le
            rw [ihA g2 (save1.dropWhile is_splitter) fresh (by omega) (by omega)]
            cases parse_command_aux fresh g2 (save1.dropWhile is_splitter) fresh with
            | done c1 =>
              simp only []
              apply ihL <;> simp only [List.length_nil] <;> omega
            | fault e => rfl
            | out_of_fuel => rfl
        · by_cases hfit : t.length < 1024
          · rw [parse_command_loop_arg fresh f1 hs hp hfit,
              parse_command_loop_arg fresh g2 hs hp hfit]
            apply ihL <;> omega
          · rw [parse_command_loop_long fresh f1 hs (Nat.not_lt.mp hfit),
              parse_command_loop_long fresh g2 hs (Nat.not_lt.mp hfit)]

/-- Any bound above the length of the text gives the result of `parse_command`. -/
theorem parse_command_eq_aux (fresh : command_t) {f : Nat} {buf : Str} (h : buf.length < f)
    (c : command_t) : parse_command fresh buf c = parse_command_aux fresh f buf c :=
  (parse_command_fuel fresh (buf.length + 1)).1 f buf c (Nat.lt_succ_self _) h

theorem parse_command_loop_any (fresh : command_t) {f1 f2 : Nat} {save : Str}
    (h1 : save.length < f1) (h2 : save.length < f2) (c : command_t) (i : Nat) :
    parse_command_loop fresh f1 save c i = parse_command_loop fresh f2 save c i :=
  (parse_command_fuel fresh f1).2 f2 save c i h1 h2

theorem parse_tokens_nil (c : command_t) (i : Nat) : parse_tokens [] c i = (c, i) := rfl

theorem parse_tokens_cons (t : Str) (ts : List Str) (c : command_t) (i : Nat) :
    parse_tokens (t :: ts) c i = parse_tokens ts (parse_arg t c i).1 (parse_arg t c i).2 := rfl

theorem parse_tokens_append (ts us : List Str) (c : command_t) (i : Nat) :
    parse_tokens (ts ++ us) c i =
      parse_tokens us (parse_tokens ts c i).1 (parse_tokens ts c i).2 := by
  unfold parse_tokens
  rw [List.foldl_append]

theorem breaks_nil : breaks [] := by
  intro c hc
  simp at hc

theorem breaks_cons {w : Char} (hw : is_splitter w = true) (r : Str) : breaks (w :: r) := by
  intro c hc
  simp at hc
  subst hc
  exact hw

theorem breaks_append_of_ne {a : Str} (ha : breaks a) (hne : a ≠ []) (b : Str) :
    breaks (a ++ b) := by
  cases a with
  | nil => exact absurd rfl hne
  | cons w r =>
    intro c hc
    exact ha c (by simpa using hc)

theorem blank_breaks {s : Str} (h : blank s) : breaks s := by
  intro c hc
  cases s with
  | nil => simp at hc
  | cons w r =>
    simp at hc
    subst hc
    exact h _ (List.mem_cons_self _ _)

theorem blank_append {a b : Str} (ha : blank a) (hb : blank b) : blank (a ++ b) := by
  intro c hc
  rcases List.mem_append.mp hc with h | h
  · exact ha c h
  · exact hb c h

theorem breaks_words {items : List (Str × Str)} (hs : spaced items) {tail : Str}
    (ht : breaks tail) : breaks (words items ++ tail) := by
  cases items with
  | nil => simpa [words] using ht
  | cons p more =>
    obtain ⟨sep, t⟩ := p
    have h := (hs (sep, t) (List.mem_cons_self _ _)).1
    simp only [words, List.append_assoc]
    exact breaks_append_of_ne (blank_breaks h.2) h.1 _

theorem parse_command_loop_skip (fresh : command_t) (f : Nat) {pre : Str} (h : blank pre)
    (x : Str) (c : command_t) (i : Nat) :
    parse_command_loop fresh f (pre ++ x) c i = parse_command_loop fresh f x c i := by
  cases f with
  | zero => rw [parse_command_loop, parse_command_loop]
  | succ f =>
    rw [parse_command_loop, strtok_skip_blank h]
    conv_rhs => rw [parse_command_loop]

theorem blank_singleton {w : Char} (hw : is_splitter w = true) : blank [w] := by
  intro c hc
  simp at hc
  subst hc
  exact hw

/-- One token that is not `|`, followed by the end of the text or by a
splitter: the loop applies `parse_arg` and goes on behind the token. -/
theorem parse_command_loop_token (fresh : command_t) {t x : Str} (ht : token t)
    (hfit : t.length < 1024) (hp : t ≠ ['|']) (hx : breaks x) {f1 f2 : Nat} (h1 : (t ++ x).length < f1)
    (h2 : x.length < f2) (c : command_t) (i : Nat) :
    parse_command_loop fresh f1 (t ++ x) c i =
      parse_command_loop fresh f2 x (parse_arg t c i).1 (parse_arg t c i).2 := by
  obtain ⟨g, rfl⟩ : ∃ g, f1 = g + 1 := ⟨f1 - 1, by omega⟩
  have htpos : 0 < t.length := List.length_pos.mpr ht.1
  rw [List.length_append] at h1
  cases x with
  | nil =>
    simp only [List.append_nil]
    rw [parse_command_loop_arg fresh g (strtok_token_end ht) hp hfit]
    exact parse_command_loop_any fresh (by simp only [List.length_nil]; omega) h2 _ _
  | cons w r =>
    have hw : is_splitter w = true := hx w (by simp)
    rw [parse_command_loop_arg fresh g (strtok_token_sep ht hw r) hp hfit]
    have := parse_command_loop_skip fresh f2 (blank_singleton hw) r
      (parse_arg t c i).1 (parse_arg t c i).2
    simp only [List.singleton_append] at this
    rw [this]
    simp only [List.length_cons] at h1 h2
    exact parse_command_loop_any fresh (by omega) (by omega) _ _

/-- A sequence of separated tokens, none of them `|`: the loop applies
`parse_arg` to each in turn and goes on with what follows. -/
theorem parse_command_loop_words (fresh : command_t) :
    ∀ (items : List (Str × Str)), spaced items → fits items →
    (∀ p ∈ items, p.2 ≠ ['|']) →
    ∀ (tail : Str), breaks tail → ∀ (f1 f2 : Nat) (c : command_t) (i : Nat),
      (words items ++ tail).length < f1 → tail.length < f2 →
      parse_command_loop fresh f1 (words items ++ tail) c i =
        parse_command_loop fresh f2 tail
          (parse_tokens (items.map Prod.snd) c i).1 (parse_tokens (items.map Prod.snd) c i).2 := by
  intro items
  induction items with
  | nil =>
    intro _ _ _ tail _ f1 f2 c i h1 h2
    simp only [words, List.nil_append] at h1 ⊢
    exact parse_command_loop_any fresh h1 h2 c i
  | cons p more ih =>
    intro hs hfit hp tail ht f1 f2 c i h1 h2
    obtain ⟨sep, t⟩ := p
    have hsep := (hs (sep, t) (List.mem_cons_self _ _)).1
    have htok := (hs (sep, t) (List.mem_cons_self _ _)).2
    have hfit0 : t.length < 1024 := hfit (sep, t) (List.mem_cons_self _ _)
    have hfit1 : fits more := fun q hq => hfit q (List.mem_cons_of_mem _ hq)
    have hs1 : spaced more := fun q hq => hs q (List.mem_cons_of_mem _ hq)
    have hp1 : ∀ q ∈ more, q.2 ≠ ['|'] := fun q hq => hp q (List.mem_cons_of_mem _ hq)
    have hne : t ≠ ['|'] := hp (sep, t) (List.mem_cons_self _ _)
    simp only [words, List.append_assoc, List.length_append] at h1 ⊢
    rw [parse_command_loop_skip fresh f1 hsep.2]
    rw [@parse_command_loop_token fresh _ _ htok hfit0 hne (breaks_words hs1 ht) f1
      ((words more ++ tail).length + 1)
      (by simp only [List.length_append]; omega) (Nat.lt_succ_self _)]
    rw [ih hs1 hfit1 hp1 tail ht _ f2 _ _ (Nat.lt_succ_self _) h2]
    simp only [List.map_cons, parse_tokens_cons]

/-- Only spaces and tabs left: the loop ends and stores `arg_index`. -/
theorem parse_command_loop_blank (fresh : command_t) {tail : Str} (h : blank tail) {f : Nat}
    (hf : 0 < f) (c : command_t) (i : Nat) :
    parse_command_loop fresh f tail c i = Outcome.done { c with arg_count := i } := by
  obtain ⟨g, rfl⟩ : ∃ g, f = g + 1 := ⟨f - 1, by omega⟩
  exact parse_command_loop_none fresh g (strtok_blank h) c i

theorem parse_command_aux_dropWhile (fresh : command_t) (f : Nat) (s : Str) (c : command_t) :
    parse_command_aux fresh f (s.dropWhile is_splitter) c = parse_command_aux fresh f s c := by
  cases f with
  | zero => rw [parse_command_aux, parse_command_aux]
  | succ f =>
    rw [parse_command_aux]
    conv_rhs => rw [parse_command_aux]
    simp only [trim, List.dropWhile_idempotent]

/-- A `|` token followed by a splitter: the rest of the text is parsed into
a fresh block, which becomes `next`, and the loop ends. -/
theorem parse_command_loop_bar (fresh : command_t) {w : Char} (hw : is_splitter w = true)
    (rest : Str) {f : Nat} (hf : ('|' :: w :: rest).length < f) (c : command_t) (i : Nat) :
    parse_command_loop fresh f ('|' :: w :: rest) c i =
      match parse_command fresh rest fresh with
      | Outcome.done c1 => Outcome.done { c with next := some c1, arg_count := i }
      | Outcome.fault e => Outcome.fault e
      | Outcome.out_of_fuel => Outcome.out_of_fuel := by
  obtain ⟨g, rfl⟩ : ∃ g, f = g + 1 := ⟨f - 1, by omega⟩
  simp only [List.length_cons] at hf
  have htok : token ['|'] := ⟨by simp, by intro x hx; simp at hx; subst hx; decide⟩
  have hs : strtok ('|' :: w :: rest) = some (['|'], true, rest) :=
    strtok_token_sep htok hw rest
  rw [parse_command_loop_pipe fresh g hs, parse_command_aux_dropWhile,
    ← parse_command_eq_aux fresh (by omega : rest.length < g)]
  cases parse_command fresh rest fresh with
  | done c1 =>
    simp only []
    exact parse_command_loop_blank fresh (fun _ h => absurd h (List.not_mem_nil _)) (by omega) _ _
  | fault e => rfl
  | out_of_fuel => rfl

/-- A `|` token that ends the text. -/
theorem parse_command_loop_bar_end (fresh : command_t) {f : Nat} (hf : 0 < f)
    (c : command_t) (i : Nat) :
    parse_command_loop fresh f ['|'] c i = Outcome.fault Fault.past_end := by
  obtain ⟨g, rfl⟩ : ∃ g, f = g + 1 := ⟨f - 1, by omega⟩
  have htok : token ['|'] := ⟨by simp, by intro x hx; simp at hx; subst hx; decide⟩
  exact parse_command_loop_pipe_end fresh g (strtok_token_end htok) c i

/-! ## Whole lines -/

theorem token_trimmed {t : Str} (ht : token t) : trimmed t := by
  constructor
  · intro c hc
    exact ht.2 c (List.mem_of_mem_head? hc)
  · intro c hc
    exact ht.2 c (List.mem_of_mem_getLast? hc)

theorem trimmed_append {a b : Str} (ha : trimmed a) (hane : a ≠ []) (hb : trimmed b)
    (hbne : b ≠ []) : trimmed (a ++ b) := by
  constructor
  · intro c hc
    rw [List.head?_append_of_ne_nil _ hane] at hc
    exact ha.1 c hc
  · intro c hc
    rw [List.getLast?_append_of_ne_nil _ hbne] at hc
    exact hb.2 c hc

theorem trim_eq {lead body trail : Str} (hl : blank lead) (ht : blank trail)
    (hb : trimmed body) : trim (lead ++ body ++ trail) = body := by
  unfold trim
  rw [List.append_assoc, List.dropWhile_append_of_pos hl]
  have hrev : ∀ x ∈ trail.reverse, is_splitter x = true := fun x hx =>
    ht x (List.mem_reverse.mp hx)
  cases body with
  | nil =>
    have h0 : trail.dropWhile is_splitter = [] := by
      rw [List.dropWhile_eq_nil_iff]
      exact ht
    simp [h0]
  | cons c cs =>
    have hc : is_splitter c = false := hb.1 c (by simp)
    have h1 : ((c :: cs) ++ trail).dropWhile is_splitter = (c :: cs) ++ trail := by
      simp [hc]
    rw [h1, List.rdropWhile, List.reverse_append, List.dropWhile_append_of_pos hrev]
    cases hr : (c :: cs).reverse with
    | nil => simp at hr
    | cons x xs =>
      have hx : (c :: cs).getLast? = some x := by
        rw [← List.head?_reverse, hr]
        rfl
      have hxs : is_splitter x = false := hb.2 x hx
      have h2 : (x :: xs).dropWhile is_splitter = x :: xs := by
        simp [hxs]
      rw [h2, ← hr, List.reverse_reverse]

theorem trim_trimmed {s : Str} (h : trimmed s) : trim s = s := by
  have := @trim_eq [] s [] (fun _ hc => absurd hc (List.not_mem_nil _))
    (fun _ hc => absurd hc (List.not_mem_nil _)) h
  simpa using this

theorem words_ne_nil {items : List (Str × Str)} (hs : spaced items) (hne : items ≠ []) :
    words items ≠ [] := by
  cases items with
  | nil => exact absurd rfl hne
  | cons p more =>
    obtain ⟨sep, t⟩ := p
    have h := (hs (sep, t) (List.mem_cons_self _ _)).1
    simp [words, h.1]

theorem last_words {a : Str} (ha : ∀ c ∈ a.getLast?, is_splitter c = false) :
    ∀ {items : List (Str × Str)}, spaced items →
      ∀ c ∈ (a ++ words items).getLast?, is_splitter c = false := by
  intro items
  induction items generalizing a with
  | nil => intro _; simpa [words] using ha
  | cons p more ih =>
    intro hs
    obtain ⟨sep, t⟩ := p
    have htok := (hs (sep, t) (List.mem_cons_self _ _)).2
    have hs1 : spaced more := fun q hq => hs q (List.mem_cons_of_mem _ hq)
    have h1 : ∀ c ∈ (a ++ sep ++ t).getLast?, is_splitter c = false := by
      intro c hc
      rw [List.getLast?_append_of_ne_nil _ htok.1] at hc
      exact htok.2 c (List.mem_of_mem_getLast? hc)
    have := ih h1 hs1
    simpa [words, List.append_assoc] using this

theorem trimmed_words {n : Str} (hn : token n) {items : List (Str × Str)}
    (hs : spaced items) : trimmed (n ++ words items) := by
  constructor
  · intro c hc
    rw [List.head?_append_of_ne_nil _ hn.1] at hc
    exact hn.2 c (List.mem_of_mem_head? hc)
  · exact last_words (token_trimmed hn).2 hs

/-- A line whose trimmed text is a name, separated tokens none of which is
`|`, and then some text `tail` that starts at a token boundary: the name is
stored, `parse_arg` is applied to each token, and the loop goes on at `tail`. -/
theorem parse_command_head (fresh : command_t) {line n tail : Str}
    {items : List (Str × Str)} (hn : token n) (hs : spaced items) (hfit : fits items)
    (hp : ∀ p ∈ items, p.2 ≠ ['|']) (htail : breaks tail)
    (htrim : trim line = n ++ words items ++ tail) (c : command_t) :
    parse_command fresh line c =
      parse_command_loop fresh (tail.length + 1) tail
        (parse_tokens (items.map Prod.snd) (named (trim line) n c) 0).1
        (parse_tokens (items.map Prod.snd) (named (trim line) n c) 0).2 := by
  have hlen := trim_length_le line
  have hnpos : 0 < n.length := List.length_pos.mpr hn.1
  have hx : breaks (words items ++ tail) := breaks_words hs htail
  unfold parse_command
  rw [parse_command_aux]
  simp only []
  rw [htrim, List.append_assoc] at hlen
  rw [List.length_append] at hlen
  have key : ∀ (d : Bool) (save : Str),
      strtok (trim line) = some (n, d, save) →
      parse_command_loop fresh line.length save (named (trim line) n c) 0 =
        parse_command_loop fresh ((words items ++ tail).length + 1) (words items ++ tail)
          (named (trim line) n c) 0 →
      (match strtok (trim line) with
        | none => Outcome.fault Fault.null_deref
        | some (pch, _, save) =>
          parse_command_loop fresh line.length save
            { set_flags (trim line) c with name := pch, args := [] } 0) =
        parse_command_loop fresh (tail.length + 1) tail
          (parse_tokens (items.map Prod.snd) (named (trim line) n c) 0).1
          (parse_tokens (items.map Prod.snd) (named (trim line) n c) 0).2 := by
    intro d save h1 h2
    rw [h1]
    simp only []
    rw [← parse_command_loop_words fresh items hs hfit hp tail htail _ _ _ _
      (Nat.lt_succ_self _) (Nat.lt_succ_self _)]
    exact h2
  cases hX : words items ++ tail with
  | nil =>
    have hst : strtok (trim line) = some (n, false, []) := by
      rw [htrim, List.append_assoc, hX, List.append_nil]
      exact strtok_token_end hn
    refine key false [] hst ?_
    rw [hX] at hlen ⊢
    exact parse_command_loop_any fresh (by simp only [List.length_nil]; omega)
      (Nat.lt_succ_self _) _ _
  | cons w r =>
    have hw : is_splitter w = true := by
      rw [hX] at hx
      exact hx w (by simp)
    have hst : strtok (trim line) = some (n, true, r) := by
      rw [htrim, List.append_assoc, hX]
      exact strtok_token_sep hn hw r
    refine key true r hst ?_
    rw [hX] at hlen
    simp only [List.length_cons] at hlen
    have := parse_command_loop_skip fresh ((w :: r).length + 1) (blank_singleton hw) r
      (named (trim line) n c) 0
    simp only [List.singleton_append] at this
    rw [hX, this]
    exact parse_command_loop_any fresh (by omega) (by simp only [List.length_cons]; omega) _ _

/-- A line without a `|` token: a name and separated tokens between optional
leading and trailing whitespace. -/
theorem parse_command_words (fresh : command_t) {lead n trail : Str}
    {items : List (Str × Str)} (hl : blank lead) (hn : token n) (hs : spaced items)
    (hfit : fits items) (hp : ∀ p ∈ items, p.2 ≠ ['|']) (ht : blank trail) (c : command_t) :
    parse_command fresh (lead ++ (n ++ words items) ++ trail) c =
      Outcome.done
        (finish (parse_tokens (items.map Prod.snd) (named (n ++ words items) n c) 0)) := by
  have htrim : trim (lead ++ (n ++ words items) ++ trail) = n ++ words items ++ [] := by
    rw [List.append_nil]
    exact trim_eq hl ht (trimmed_words hn hs)
  rw [parse_command_head fresh hn hs hfit hp breaks_nil htrim c]
  rw [htrim, List.append_nil]
  exact parse_command_loop_blank fresh (fun _ h => absurd h (List.not_mem_nil _))
    (by simp) _ _

theorem parse_command_congr (fresh : command_t) {x y : Str} (h : trim x = trim y)
    (c : command_t) : parse_command fresh x c = parse_command fresh y c := by
  rw [parse_command_eq_aux fresh (f := x.length + y.length + 1) (by omega),
    parse_command_eq_aux fresh (f := x.length + y.length + 1) (by omega)]
  rw [parse_command_aux]
  conv_rhs => rw [parse_command_aux]
  simp only [h]

/-- A line with a `|` token after the head Command text: the head takes its
own tokens, the text after the `|` is parsed into a fresh block that becomes
`next`, and a fault of that parse is a fault of the whole. -/
theorem parse_command_bar (fresh : command_t) {lead n sep sep2 rest trail : Str}
    {items : List (Str × Str)} (hl : blank lead) (hn : token n) (hs : spaced items)
    (hfit : fits items) (hp : ∀ p ∈ items, p.2 ≠ ['|']) (hsep : sep ≠ [] ∧ blank sep)
    (hsep2 : sep2 ≠ [] ∧ blank sep2) (hr : trimmed rest) (hrne : rest ≠ [])
    (ht : blank trail) (c : command_t) :
    parse_command fresh (lead ++ (n ++ words items ++ sep ++ ['|'] ++ sep2 ++ rest) ++ trail) c =
      match parse_command fresh rest fresh with
      | Outcome.done c1 =>
        Outcome.done
          { finish (parse_tokens (items.map Prod.snd) (named rest n c) 0) with
            next := some c1 }
      | Outcome.fault e => Outcome.fault e
      | Outcome.out_of_fuel => Outcome.out_of_fuel := by
  obtain ⟨w, sep2r, rfl⟩ : ∃ w r, sep2 = w :: r := by
    cases sep2 with
    | nil => exact absurd rfl hsep2.1
    | cons w r => exact ⟨w, r, rfl⟩
  have hw : is_splitter w = true := hsep2.2 w (List.mem_cons_self _ _)
  have hr2 : blank sep2r := fun x hx => hsep2.2 x (List.mem_cons_of_mem _ hx)
  have hbody : trimmed (n ++ words items ++ sep ++ ['|'] ++ (w :: sep2r) ++ rest) := by
    constructor
    · intro x hx
      simp only [List.append_assoc] at hx
      rw [List.head?_append_of_ne_nil _ hn.1] at hx
      exact hn.2 x (List.mem_of_mem_head? hx)
    · intro x hx
      rw [List.getLast?_append_of_ne_nil _ hrne] at hx
      exact hr.2 x hx
  have htrim : trim (lead ++ (n ++ words items ++ sep ++ ['|'] ++ (w :: sep2r) ++ rest) ++ trail)
      = n ++ words items ++ (sep ++ '|' :: w :: (sep2r ++ rest)) := by
    rw [trim_eq hl ht hbody]
    simp
  have htail : breaks (sep ++ '|' :: w :: (sep2r ++ rest)) :=
    breaks_append_of_ne (blank_breaks hsep.2) hsep.1 _
  rw [parse_command_head fresh hn hs hfit hp htail htrim c]
  rw [parse_command_loop_skip fresh _ hsep.2]
  rw [parse_command_loop_bar fresh hw _ (by simp only [List.length_append, List.length_cons]; omega)]
  rw [parse_command_congr fresh (x := sep2r ++ rest) (y := rest)
    (by
      have := @trim_eq sep2r rest [] hr2
        (fun _ h => absurd h (List.not_mem_nil _)) hr
      rw [List.append_nil] at this
      rw [this, trim_trimmed hr])]
  have hflags : named
      (trim (lead ++ (n ++ words items ++ sep ++ ['|'] ++ (w :: sep2r) ++ rest) ++ trail)) n c
      = named rest n c := by
    rw [trim_eq hl ht hbody]
    unfold named set_flags
    rw [List.getLast?_append_of_ne_nil _ hrne]
  rw [hflags]
  cases parse_command fresh rest fresh with
  | done c1 => rfl
  | fault e => rfl
  | out_of_fuel => rfl

/-- A line that ends in a `|` token: the scan for the next Command leaves the
line. -/
theorem parse_command_bar_end (fresh : command_t) {lead n sep trail : Str}
    {items : List (Str × Str)} (hl : blank lead) (hn : token n) (hs : spaced items)
    (hfit : fits items) (hp : ∀ p ∈ items, p.2 ≠ ['|']) (hsep : sep ≠ [] ∧ blank sep)
    (ht : blank trail) (c : command_t) :
    parse_command fresh (lead ++ (n ++ words items ++ sep ++ ['|']) ++ trail) c =
      Outcome.fault Fault.past_end := by
  have hbody : trimmed (n ++ words items ++ sep ++ ['|']) := by
    constructor
    · intro x hx
      simp only [List.append_assoc] at hx
      rw [List.head?_append_of_ne_nil _ hn.1] at hx
      exact hn.2 x (List.mem_of_mem_head? hx)
    · intro x hx
      rw [List.getLast?_append_of_ne_nil _ (by simp)] at hx
      simp at hx
      subst hx
      decide
  have htrim : trim (lead ++ (n ++ words items ++ sep ++ ['|']) ++ trail)
      = n ++ words items ++ (sep ++ ['|']) := by
    rw [trim_eq hl ht hbody]
    simp
  have htail : breaks (sep ++ ['|']) := breaks_append_of_ne (blank_breaks hsep.2) hsep.1 _
  rw [parse_command_head fresh hn hs hfit hp htail htrim c]
  rw [parse_command_loop_skip fresh _ hsep.2]
  exact parse_command_loop_bar_end fresh (by omega) _ _

/-- A line of spaces and tabs only, the empty line included: `strtok` returns
`NULL` and `strlen(pch)` is evaluated before the `pch == NULL` test. -/
theorem parse_command_blank (fresh : command_t) {line : Str} (h : blank line)
    (c : command_t) : parse_command fresh line c = Outcome.fault Fault.null_deref := by
  have htrim : trim line = [] := by
    have := @trim_eq line [] [] h
      (fun _ h => absurd h (List.not_mem_nil _))
      ⟨fun _ h => by simp at h, fun _ h => by simp at h⟩
    simpa using this
  unfold parse_command
  rw [parse_command_aux]
  simp only [htrim]
  rfl

/-! ## What one token does -/

theorem parse_arg_amp (c : command_t) (i : Nat) : parse_arg ['&'] c i = (c, i) := by
  simp [parse_arg]

theorem parse_arg_normal {t : Str} (h1 : t ≠ ['&']) (h2 : t.head? ≠ some '<')
    (h3 : t.head? ≠ some '>') (c : command_t) (i : Nat) :
    parse_arg t c i = ({ c with args := c.args ++ [strip_quotes t] }, i + 1) := by
  simp [parse_arg, redirect_index, h1, h2, h3]

theorem parse_arg_operator {k : Nat} (hk : k ≤ 2) {s : Str}
    (hs : k = 1 → s.head? ≠ some '>') (c : command_t) (i : Nat) :
    parse_arg (operator_token k s) c i =
      ({ c with redirects := c.redirects.set k (some s) }, i) := by
  have h0 : ('<' : Char) ≠ '>' := by decide
  have h1 : ('<' : Char) ≠ '&' := by decide
  have h2 : ('>' : Char) ≠ '&' := by decide
  rcases k with _ | _ | _ | k
  · simp [operator_token, parse_arg, redirect_index, h0, h1]
  · have hs1 := hs rfl
    cases s with
    | nil => simp [operator_token, parse_arg, redirect_index, h2]
    | cons x xs =>
      have hx : x ≠ '>' := by simpa using hs1
      simp [operator_token, parse_arg, redirect_index, h2, hx]
  · simp [operator_token, parse_arg, redirect_index, h2]
  · omega

/-- A token changes nothing but `args` and `redirects`. -/
theorem parse_arg_frame (t : Str) (c : command_t) (i : Nat) :
    (parse_arg t c i).1.name = c.name ∧ (parse_arg t c i).1.next = c.next ∧
    (parse_arg t c i).1.background = c.background ∧
    (parse_arg t c i).1.auto_complete = c.auto_complete ∧
    (parse_arg t c i).1.redirects.length = c.redirects.length := by
  unfold parse_arg
  split
  · simp
  · split <;> simp

theorem parse_tokens_frame (ts : List Str) : ∀ (c : command_t) (i : Nat),
    (parse_tokens ts c i).1.name = c.name ∧ (parse_tokens ts c i).1.next = c.next ∧
    (parse_tokens ts c i).1.background = c.background ∧
    (parse_tokens ts c i).1.auto_complete = c.auto_complete ∧
    (parse_tokens ts c i).1.redirects.length = c.redirects.length := by
  induction ts with
  | nil => intro c i; simp [parse_tokens_nil]
  | cons t ts ih =>
    intro c i
    rw [parse_tokens_cons]
    obtain ⟨a1, a2, a3, a4, a5⟩ := ih (parse_arg t c i).1 (parse_arg t c i).2
    obtain ⟨b1, b2, b3, b4, b5⟩ := parse_arg_frame t c i
    exact ⟨a1.trans b1, a2.trans b2, a3.trans b3, a4.trans b4, a5.trans b5⟩

/-- Tokens that are neither `|`, nor redirections: every token but a lone
`&` becomes an argument, quote-stripped, in order. -/
theorem parse_tokens_normal (ts : List Str) : ∀ (c : command_t) (i : Nat),
    (∀ t ∈ ts, t.head? ≠ some '<' ∧ t.head? ≠ some '>') →
    parse_tokens ts c i =
      ({ c with args := c.args ++ (ts.filter (fun t => decide (t ≠ ['&']))).map strip_quotes },
       i + (ts.filter (fun t => decide (t ≠ ['&']))).length) := by
  induction ts with
  | nil => intro c i _; cases c; simp [parse_tokens_nil]
  | cons t ts ih =>
    intro c i h
    rw [parse_tokens_cons]
    have ht := h t (List.mem_cons_self _ _)
    have hts : ∀ u ∈ ts, u.head? ≠ some '<' ∧ u.head? ≠ some '>' :=
      fun u hu => h u (List.mem_cons_of_mem _ hu)
    by_cases ha : t = ['&']
    · subst ha
      rw [parse_arg_amp, ih c i hts]
      simp
    · rw [parse_arg_normal ha ht.1 ht.2, ih _ _ hts]
      simp [ha]
      omega

theorem plain_token {t : Str} (h : plain t) : token t := by
  refine ⟨h.1, fun c hc => ?_⟩
  have := h.2 c hc
  simp only [special, Bool.or_eq_false_iff] at this
  exact this.1.1.1.1.1.1.1

theorem plain_chars {t : Str} (h : plain t) {c : Char} (hc : c ∈ t) :
    c ≠ '|' ∧ c ≠ '&' ∧ c ≠ '?' ∧ c ≠ '<' ∧ c ≠ '>' ∧ c ≠ dquote ∧ c ≠ squote := by
  have := h.2 c hc
  simp only [special, Bool.or_eq_false_iff, beq_eq_false_iff_ne, ne_eq] at this
  obtain ⟨⟨⟨⟨⟨⟨⟨_, h1⟩, h2⟩, h3⟩, h4⟩, h5⟩, h6⟩, h7⟩ := this
  exact ⟨h1, h2, h3, h4, h5, h6, h7⟩

theorem plain_head {t : Str} (h : plain t) :
    ∃ c cs, t = c :: cs ∧ c ≠ '|' ∧ c ≠ '&' ∧ c ≠ '?' ∧ c ≠ '<' ∧ c ≠ '>' ∧
      c ≠ dquote ∧ c ≠ squote := by
  cases t with
  | nil => exact absurd rfl h.1
  | cons c cs => exact ⟨c, cs, rfl, plain_chars h (List.mem_cons_self _ _)⟩

theorem plain_ne_bar {t : Str} (h : plain t) : t ≠ ['|'] := by
  obtain ⟨c, cs, rfl, h1, _⟩ := plain_head h
  intro he
  injection he with he1 _
  exact h1 he1

theorem plain_last {t : Str} (h : plain t) :
    t.getLast? ≠ some '?' ∧ t.getLast? ≠ some '&' ∧ t.getLast? ≠ some dquote ∧
      t.getLast? ≠ some squote := by
  have key : ∀ x, t.getLast? = some x → x ∈ t := fun x hx => List.mem_of_mem_getLast? hx
  refine ⟨fun e => ?_, fun e => ?_, fun e => ?_, fun e => ?_⟩
  · exact (plain_chars h (key _ e)).2.2.1 rfl
  · exact (plain_chars h (key _ e)).2.1 rfl
  · exact (plain_chars h (key _ e)).2.2.2.2.2.1 rfl
  · exact (plain_chars h (key _ e)).2.2.2.2.2.2 rfl

theorem strip_quotes_plain {t : Str} (h : plain t) : strip_quotes t = t := by
  have hl := plain_last h
  unfold strip_quotes
  rw [if_neg]
  rintro ⟨_, h1 | h1⟩
  · exact hl.2.2.1 h1.2
  · exact hl.2.2.2 h1.2

theorem parse_arg_plain {t : Str} (h : plain t) (c : command_t) (i : Nat) :
    parse_arg t c i = ({ c with args := c.args ++ [t] }, i + 1) := by
  obtain ⟨x, xs, rfl, h1, h2, h3, h4, h5, _⟩ := plain_head h
  have e := parse_arg_normal (t := x :: xs) (by
    intro he
    injection he with he1 _
    exact h2 he1) (by simpa using h4) (by simpa using h5) c i
  rw [e, strip_quotes_plain h]

/-- Plain tokens all become arguments, unchanged and in order. -/
theorem parse_tokens_plain (ts : List Str) : ∀ (c : command_t) (i : Nat),
    (∀ t ∈ ts, plain t) →
    parse_tokens ts c i = ({ c with args := c.args ++ ts }, i + ts.length) := by
  induction ts with
  | nil => intro c i _; cases c; simp [parse_tokens_nil]
  | cons t ts ih =>
    intro c i h
    rw [parse_tokens_cons, parse_arg_plain (h t (List.mem_cons_self _ _)),
      ih _ _ (fun u hu => h u (List.mem_cons_of_mem _ hu))]
    simp
    omega

theorem set_flags_plain {buf : Str} (h1 : buf.getLast? ≠ some '?')
    (h2 : buf.getLast? ≠ some '&') (c : command_t) : set_flags buf c = c := by
  simp [set_flags, h1, h2]

/-! ## Every line is blank or a name and separated tokens -/

theorem blank_nil : blank [] := fun _ h => absurd h (List.not_mem_nil _)

theorem blank_cons {w : Char} (hw : is_splitter w = true) {s : Str} (h : blank s) :
    blank (w :: s) := by
  intro c hc
  rcases List.mem_cons.mp hc with rfl | h1
  · exact hw
  · exact h c h1

theorem token_cons {c : Char} (hc : is_splitter c = false) {t : Str}
    (ht : ∀ x ∈ t, is_splitter x = false) : token (c :: t) := by
  refine ⟨by simp, fun x hx => ?_⟩
  rcases List.mem_cons.mp hx with rfl | h1
  · exact hc
  · exact ht x h1

theorem line_shape (line : Str) :
    blank line ∨
    ∃ (lead n trail : Str) (items : List (Str × Str)),
      blank lead ∧ token n ∧ spaced items ∧ blank trail ∧
      line = lead ++ (n ++ words items) ++ trail := by
  induction line with
  | nil => exact Or.inl blank_nil
  | cons c l ih =>
    by_cases hc : is_splitter c = true
    · rcases ih with hb | ⟨lead, n, trail, items, h1, h2, h3, h4, h5⟩
      · exact Or.inl (blank_cons hc hb)
      · exact Or.inr ⟨c :: lead, n, trail, items, blank_cons hc h1, h2, h3, h4, by rw [h5]; rfl⟩
    · have hc0 : is_splitter c = false := by simpa using hc
      rcases ih with hb | ⟨lead, n, trail, items, h1, h2, h3, h4, h5⟩
      · refine Or.inr ⟨[], [c], l, [], blank_nil, token_cons hc0 (by simp), ?_, hb, ?_⟩
        · intro p hp
          simp at hp
        · simp [words]
      · cases lead with
        | nil =>
          refine Or.inr ⟨[], c :: n, trail, items, blank_nil, token_cons hc0 h2.2, h3, h4, ?_⟩
          rw [h5]
          rfl
        | cons w lead1 =>
          refine Or.inr ⟨[], [c], trail, (w :: lead1, n) :: items, blank_nil,
            token_cons hc0 (by simp), ?_, h4, ?_⟩
          · intro p hp
            rcases List.mem_cons.mp hp with rfl | hp1
            · exact ⟨⟨by simp, h1⟩, h2⟩
            · exact h3 p hp1
          · rw [h5]
            simp [words]

/-! ## The specification's tokeniser on such a line -/

theorem spec_tokens_nil : spec_tokens [] = [] := by
  simp [spec_tokens, List.splitOnP_nil]

theorem spec_tokens_splitter {w : Char} (hw : is_splitter w = true) (rest : Str) :
    spec_tokens (w :: rest) = spec_tokens rest := by
  simp [spec_tokens, List.splitOnP_cons, hw]

theorem spec_tokens_skip {pre : Str} (h : blank pre) (x : Str) :
    spec_tokens (pre ++ x) = spec_tokens x := by
  induction pre with
  | nil => rfl
  | cons w pre ih =>
    rw [List.cons_append, spec_tokens_splitter (h w (List.mem_cons_self _ _))]
    exact ih (fun c hc => h c (List.mem_cons_of_mem _ hc))

theorem spec_tokens_token {t x : Str} (ht : token t) (hx : breaks x) :
    spec_tokens (t ++ x) = t :: spec_tokens x := by
  have hnot : ∀ c ∈ t, ¬ is_splitter c = true := fun c hc => by simp [ht.2 c hc]
  have hne : (!t.isEmpty) = true := by
    cases t with
    | nil => exact absurd rfl ht.1
    | cons c cs => rfl
  cases x with
  | nil =>
    rw [List.append_nil, spec_tokens_nil]
    simp [spec_tokens, List.splitOnP_eq_single is_splitter t hnot, hne]
  | cons w r =>
    have hw : is_splitter w = true := hx w (by simp)
    rw [spec_tokens_splitter hw]
    unfold spec_tokens
    rw [List.splitOnP_first is_splitter t hnot w hw r]
    simp [List.filter_cons, hne]

theorem spec_tokens_words : ∀ {items : List (Str × Str)}, spaced items →
    ∀ {trail : Str}, blank trail → spec_tokens (words items ++ trail) = items.map Prod.snd := by
  intro items
  induction items with
  | nil =>
    intro _ trail ht
    have := spec_tokens_skip ht []
    simpa [words, spec_tokens_nil] using this
  | cons p more ih =>
    intro hs trail ht
    obtain ⟨sep, t⟩ := p
    have hsep := (hs (sep, t) (List.mem_cons_self _ _)).1
    have htok := (hs (sep, t) (List.mem_cons_self _ _)).2
    have hs1 : spaced more := fun q hq => hs q (List.mem_cons_of_mem _ hq)
    simp only [words, List.append_assoc, List.map_cons]
    rw [spec_tokens_skip hsep.2, spec_tokens_token htok (breaks_words hs1 (blank_breaks ht)),
      ih hs1 ht]

theorem spec_tokens_line {lead n trail : Str} {items : List (Str × Str)} (hl : blank lead)
    (hn : token n) (hs : spaced items) (ht : blank trail) :
    spec_tokens (lead ++ (n ++ words items) ++ trail) = n :: items.map Prod.snd := by
  simp only [List.append_assoc]
  rw [spec_tokens_skip hl, spec_tokens_token hn (breaks_words hs (blank_breaks ht)),
    spec_tokens_words hs ht]

theorem spec_tokens_blank {s : Str} (h : blank s) : spec_tokens s = [] := by
  have := spec_tokens_skip h []
  simpa [spec_tokens_nil] using this

/-- The code strips quotes exactly as the specification words it, except from
a token of two characters. -/
theorem strip_quotes_eq_spec {t : Str} (h : t.length ≠ 2) :
    strip_quotes t = spec_strip_quotes t := by
  unfold strip_quotes spec_strip_quotes
  by_cases h2 : 2 < t.length
  · have h3 : 2 ≤ t.length := by omega
    simp [h2, h3]
  · have h3 : ¬ 2 ≤ t.length := by omega
    simp [h2, h3]

/-! ## Lines of plain and of kept tokens -/

theorem words_append (a b : List (Str × Str)) : words (a ++ b) = words a ++ words b := by
  induction a with
  | nil => rfl
  | cons p a ih =>
    obtain ⟨sep, t⟩ := p
    rw [List.cons_append]
    simp only [words]
    rw [ih]
    simp only [List.append_assoc]

theorem spaced_append {a b : List (Str × Str)} (ha : spaced a) (hb : spaced b) :
    spaced (a ++ b) := by
  intro p hp
  rcases List.mem_append.mp hp with h | h
  · exact ha p h
  · exact hb p h

theorem spaced_singleton {sep t : Str} (hsep : sep ≠ [] ∧ blank sep) (ht : token t) :
    spaced [(sep, t)] := by
  intro p hp
  simp only [List.mem_singleton] at hp
  subst hp
  exact ⟨hsep, ht⟩

theorem fits_append {a b : List (Str × Str)} (ha : fits a) (hb : fits b) : fits (a ++ b) := by
  intro p hp
  rcases List.mem_append.mp hp with h | h
  · exact ha p h
  · exact hb p h

theorem fits_singleton {sep t : Str} (ht : t.length < 1024) : fits [(sep, t)] := by
  intro p hp
  simp only [List.mem_singleton] at hp
  subst hp
  exact ht

theorem fits_nil : fits [] := fun _ h => absurd h (List.not_mem_nil _)

/-- The last character of a name followed by tokens is the last character of
the name or a character of one of the tokens. -/
theorem last_words_mem {a : Str} :
    ∀ {items : List (Str × Str)}, (∀ p ∈ items, p.2 ≠ []) →
      ∀ c ∈ (a ++ words items).getLast?, c ∈ a.getLast? ∨ ∃ p ∈ items, c ∈ p.2 := by
  intro items
  induction items generalizing a with
  | nil =>
    intro _ c hc
    left
    simpa [words] using hc
  | cons p more ih =>
    intro hne c hc
    obtain ⟨sep, t⟩ := p
    have ht : t ≠ [] := hne (sep, t) (List.mem_cons_self _ _)
    have hc1 : c ∈ (a ++ sep ++ t ++ words more).getLast? := by
      simpa [words, List.append_assoc] using hc
    rcases ih (a := a ++ sep ++ t) (fun q hq => hne q (List.mem_cons_of_mem _ hq)) c hc1
      with h | ⟨q, hq, hcq⟩
    · right
      rw [List.getLast?_append_of_ne_nil _ ht] at h
      exact ⟨(sep, t), List.mem_cons_self _ _, List.mem_of_mem_getLast? h⟩
    · right
      exact ⟨q, List.mem_cons_of_mem _ hq, hcq⟩

/-- A line of plain tokens does not end in `?` or `&`: no flag is set. -/
theorem named_plain {n : Str} (hn : plain n) {items : List (Str × Str)}
    (hp : ∀ p ∈ items, plain p.2) (c : command_t) :
    named (n ++ words items) n c = { c with name := n, args := [] } := by
  have key : ∀ x, (n ++ words items).getLast? = some x → x ≠ '?' ∧ x ≠ '&' := by
    intro x hx
    rcases last_words_mem (fun p h => (hp p h).1) x hx with h | ⟨p, h1, h2⟩
    · have := plain_chars hn (List.mem_of_mem_getLast? h)
      exact ⟨this.2.2.1, this.2.1⟩
    · have := plain_chars (hp p h1) h2
      exact ⟨this.2.2.1, this.2.1⟩
  have h1 : (n ++ words items).getLast? ≠ some '?' := fun e => (key _ e).1 rfl
  have h2 : (n ++ words items).getLast? ≠ some '&' := fun e => (key _ e).2 rfl
  unfold named
  rw [set_flags_plain h1 h2]

/-- A simple command text, a name and plain tokens, with whitespace around. -/
theorem parse_command_plain (fresh : command_t) {lead n trail : Str}
    {items : List (Str × Str)} (hl : blank lead) (hn : plain n) (hs : spaced items)
    (hfit : fits items) (hp : ∀ p ∈ items, plain p.2) (ht : blank trail) (c : command_t) :
    parse_command fresh (lead ++ (n ++ words items) ++ trail) c =
      Outcome.done { c with name := n, args := items.map Prod.snd,
                            arg_count := items.length } := by
  rw [parse_command_words fresh hl (plain_token hn) hs hfit
    (fun p h => plain_ne_bar (hp p h)) ht, named_plain hn hp, parse_tokens_plain]
  · simp [finish]
  · intro t ht1
    obtain ⟨p, hp1, rfl⟩ := List.mem_map.mp ht1
    exact hp p hp1

/-- Two simple command texts around a `|`: the head takes the tokens of the
first, the second is parsed into the block `malloc` returned, which keeps
every field the parser does not write. -/
theorem parse_command_pipe_plain (fresh c : command_t) {nL nR : Str}
    {itemsL itemsR : List (Str × Str)} (hnL : plain nL) (hsL : spaced itemsL)
    (hfitL : fits itemsL) (hpL : ∀ p ∈ itemsL, plain p.2) (hnR : plain nR)
    (hsR : spaced itemsR) (hfitR : fits itemsR) (hpR : ∀ p ∈ itemsR, plain p.2) :
    parse_command fresh ((nL ++ words itemsL) ++ [' ', '|', ' '] ++ (nR ++ words itemsR)) c =
      Outcome.done
        { c with name := nL, args := itemsL.map Prod.snd, arg_count := itemsL.length,
                 next := some { fresh with name := nR, args := itemsR.map Prod.snd,
                                           arg_count := itemsR.length } } := by
  have hsp : ([' '] : Str) ≠ [] ∧ blank [' '] := ⟨by simp, blank_singleton (by decide)⟩
  have hR : trimmed (nR ++ words itemsR) := trimmed_words (plain_token hnR) hsR
  have hRne : nR ++ words itemsR ≠ [] := by simp [hnR.1]
  have hline : (nL ++ words itemsL) ++ [' ', '|', ' '] ++ (nR ++ words itemsR) =
      [] ++ (nL ++ words itemsL ++ [' '] ++ ['|'] ++ [' '] ++ (nR ++ words itemsR)) ++ [] := by
    simp
  rw [hline, parse_command_bar fresh blank_nil (plain_token hnL) hsL hfitL
    (fun p h => plain_ne_bar (hpL p h)) hsp hsp hR hRne blank_nil c]
  have hinner := parse_command_plain fresh blank_nil hnR hsR hfitR hpR blank_nil fresh
  simp only [List.nil_append, List.append_nil] at hinner
  rw [hinner]
  have hflags : named (nR ++ words itemsR) nL c = { c with name := nL, args := [] } := by
    have h := named_plain hnR hpR c
    unfold named at h ⊢
    have h1 : set_flags (nR ++ words itemsR) c = c := by
      have key : ∀ x, (nR ++ words itemsR).getLast? = some x → x ≠ '?' ∧ x ≠ '&' := by
        intro x hx
        rcases last_words_mem (fun p h => (hpR p h).1) x hx with h | ⟨p, h1, h2⟩
        · have := plain_chars hnR (List.mem_of_mem_getLast? h)
          exact ⟨this.2.2.1, this.2.1⟩
        · have := plain_chars (hpR p h1) h2
          exact ⟨this.2.2.1, this.2.1⟩
      exact set_flags_plain (fun e => (key _ e).1 rfl) (fun e => (key _ e).2 rfl) c
    rw [h1]
  rw [hflags, parse_tokens_plain]
  · simp [finish]
  · intro t ht1
    obtain ⟨p, hp1, rfl⟩ := List.mem_map.mp ht1
    exact hpL p hp1

theorem plain_kept {t : Str} (h : plain t) : kept t := by
  obtain ⟨x, xs, rfl, h1, h2, h3, h4, h5, _⟩ := plain_head h
  refine ⟨plain_token h, plain_ne_bar h, ?_, by simpa using h4, by simpa using h5,
    strip_quotes_plain h⟩
  intro he
  injection he with he1 _
  exact h2 he1

theorem parse_tokens_kept (ts : List Str) : ∀ (c : command_t) (i : Nat),
    (∀ t ∈ ts, kept t) →
    parse_tokens ts c i = ({ c with args := c.args ++ ts }, i + ts.length) := by
  induction ts with
  | nil => intro c i _; cases c; simp [parse_tokens_nil]
  | cons t ts ih =>
    intro c i h
    obtain ⟨_, _, h2, h3, h4, h5⟩ := h t (List.mem_cons_self _ _)
    rw [parse_tokens_cons, parse_arg_normal h2 h3 h4, h5,
      ih _ _ (fun u hu => h u (List.mem_cons_of_mem _ hu))]
    simp
    omega

/-! ## The flags do not interact with the tokens -/

theorem set_flags_fields (buf : Str) (c : command_t) :
    (set_flags buf c).name = c.name ∧ (set_flags buf c).args = c.args ∧
    (set_flags buf c).arg_count = c.arg_count ∧
    (set_flags buf c).redirects = c.redirects ∧ (set_flags buf c).next = c.next := by
  unfold set_flags
  refine ⟨?_, ?_, ?_, ?_, ?_⟩ <;> (split <;> split <;> rfl)

theorem set_flags_background (buf : Str) (c : command_t) :
    (set_flags buf c).background = (c.background || decide (buf.getLast? = some '&')) := by
  unfold set_flags
  split <;> split <;> simp_all

theorem set_flags_auto_complete (buf : Str) (c : command_t) :
    (set_flags buf c).auto_complete =
      (c.auto_complete || decide (buf.getLast? = some '?')) := by
  unfold set_flags
  split <;> split <;> simp_all

theorem parse_arg_set_flags (buf t : Str) (c : command_t) (i : Nat) :
    parse_arg t (set_flags buf c) i =
      (set_flags buf (parse_arg t c i).1, (parse_arg t c i).2) := by
  unfold parse_arg set_flags
  split
  · rfl
  · split <;> (split <;> split <;> rfl)

theorem parse_tokens_set_flags (buf : Str) (ts : List Str) : ∀ (c : command_t) (i : Nat),
    parse_tokens ts (set_flags buf c) i =
      (set_flags buf (parse_tokens ts c i).1, (parse_tokens ts c i).2) := by
  induction ts with
  | nil => intro c i; rfl
  | cons t ts ih =>
    intro c i
    rw [parse_tokens_cons, parse_tokens_cons, parse_arg_set_flags, ih]

theorem finish_named (buf n : Str) (ts : List Str) (c : command_t) :
    finish (parse_tokens ts (named buf n c) 0) = set_flags buf (tokens_result n ts c) := by
  have h : named buf n c = set_flags buf { c with name := n, args := [] } := by
    unfold named set_flags
    split <;> split <;> rfl
  rw [h, parse_tokens_set_flags]
  unfold tokens_result finish set_flags
  split <;> split <;> rfl

/-- A line without a `|` token, flags applied last. -/
theorem parse_command_segment (fresh : command_t) {lead n trail : Str}
    {items : List (Str × Str)} (hl : blank lead) (hn : token n) (hs : spaced items)
    (hfit : fits items) (hp : ∀ p ∈ items, p.2 ≠ ['|']) (ht : blank trail) (c : command_t) :
    parse_command fresh (lead ++ (n ++ words items) ++ trail) c =
      Outcome.done (set_flags (n ++ words items) (tokens_result n (items.map Prod.snd) c)) := by
  rw [parse_command_words fresh hl hn hs hfit hp ht, finish_named]

theorem tokens_result_fields (n : Str) (ts : List Str) (c : command_t) :
    (tokens_result n ts c).name = n ∧ (tokens_result n ts c).next = c.next ∧
    (tokens_result n ts c).background = c.background ∧
    (tokens_result n ts c).auto_complete = c.auto_complete ∧
    (tokens_result n ts c).redirects.length = c.redirects.length := by
  obtain ⟨h1, h2, h3, h4, h5⟩ := parse_tokens_frame ts { c with name := n, args := [] } 0
  exact ⟨h1, h2, h3, h4, h5⟩

theorem tokens_result_kept (n : Str) {ts : List Str} (h : ∀ t ∈ ts, kept t) (c : command_t) :
    tokens_result n ts c = { c with name := n, args := ts, arg_count := ts.length } := by
  unfold tokens_result
  rw [parse_tokens_kept ts _ _ h]
  simp [finish]

/-! ## Quotes, redirections and the background marker on whole lines -/

theorem quote_not_special_head {q : Char} (hq : q = dquote ∨ q = squote) :
    is_splitter q = false ∧ q ≠ '|' ∧ q ≠ '&' ∧ q ≠ '<' ∧ q ≠ '>' := by
  rcases hq with rfl | rfl <;> decide

theorem kept_open_quote {q : Char} (hq : q = dquote ∨ q = squote) {w : Str} (hw : plain w) :
    kept (q :: w) := by
  obtain ⟨h1, h2, h3, h4, h5⟩ := quote_not_special_head hq
  refine ⟨token_cons h1 (plain_token hw).2, ?_, ?_, by simpa using h4, by simpa using h5, ?_⟩
  · intro he
    injection he with he1 _
    exact h2 he1
  · intro he
    injection he with he1 _
    exact h3 he1
  · have hl := plain_last hw
    have hlast : (q :: w).getLast? = w.getLast? := by
      have := List.getLast?_append_of_ne_nil [q] hw.1
      simpa using this
    unfold strip_quotes
    rw [if_neg]
    rintro ⟨_, ha | ha⟩
    · rw [hlast] at ha
      exact hl.2.2.1 ha.2
    · rw [hlast] at ha
      exact hl.2.2.2 ha.2

theorem kept_close_quote {q : Char} (hq : q = dquote ∨ q = squote) {w : Str} (hw : plain w) :
    kept (w ++ [q]) := by
  obtain ⟨h1, _, _, _, _⟩ := quote_not_special_head hq
  obtain ⟨x, xs, rfl, g1, g2, g3, g4, g5, g6, g7⟩ := plain_head hw
  have htok : token (x :: xs ++ [q]) := by
    refine ⟨by simp, fun c hc => ?_⟩
    rcases List.mem_append.mp hc with h | h
    · exact (plain_token hw).2 c h
    · simp only [List.mem_singleton] at h
      subst h
      exact h1
  refine ⟨htok, ?_, ?_, by simpa using g4, by simpa using g5, ?_⟩
  · intro he
    injection he with he1 _
    exact g1 he1
  · intro he
    injection he with he1 _
    exact g2 he1
  · unfold strip_quotes
    rw [if_neg]
    rintro ⟨_, ha | ha⟩
    · have : x = dquote := by simpa using ha.1
      exact g6 this
    · have : x = squote := by simpa using ha.1
      exact g7 this

theorem operator_token_token {k : Nat} {s : Str} (hs : ∀ x ∈ s, is_splitter x = false) :
    token (operator_token k s) := by
  rcases k with _ | _ | k
  · exact token_cons (by decide) hs
  · exact token_cons (by decide) hs
  · exact token_cons (by decide) (fun x hx => by
      rcases List.mem_cons.mp hx with rfl | h
      · decide
      · exact hs x h)

theorem operator_token_ne_bar (k : Nat) (s : Str) : operator_token k s ≠ ['|'] := by
  rcases k with _ | _ | k <;>
  · intro he
    injection he with he1 _
    exact absurd he1 (by decide)

/-! ## The arguments of a line without pipe or redirection -/

/-- The code strips quotes from a token longer than two characters that a
matching pair of quotes bounds, and from no other token. -/
theorem strip_quotes_eq_long (t : Str) : strip_quotes t = spec_strip_long_quotes t := by
  cases t with
  | nil => simp [strip_quotes, spec_strip_long_quotes]
  | cons q rest =>
    unfold strip_quotes spec_strip_long_quotes
    by_cases hlen : 2 ≤ rest.length
    · have hne : rest ≠ [] := by
        intro h
        rw [h] at hlen
        simp at hlen
      have hlast : (q :: rest).getLast? = rest.getLast? := by
        have := List.getLast?_append_of_ne_nil [q] hne
        simpa using this
      have hdrop : (q :: rest).dropLast.drop 1 = rest.dropLast := by
        cases rest with
        | nil => exact absurd rfl hne
        | cons x xs => simp [List.dropLast]
      have h2 : 2 < (q :: rest).length := by
        simp only [List.length_cons]
        omega
      rw [hlast, hdrop]
      simp only [List.head?_cons, Option.some.injEq, h2, true_and, hlen]
      by_cases hq : q = dquote
      · subst hq
        by_cases hl : rest.getLast? = some dquote
        · simp [hl]
        · simp [hl, show dquote ≠ squote by decide]
      · by_cases hq2 : q = squote
        · subst hq2
          by_cases hl : rest.getLast? = some squote
          · simp [hl]
          · simp [hl, show squote ≠ dquote by decide]
        · simp [hq, hq2]
    · have h2 : ¬ 2 < (q :: rest).length := by
        simp only [List.length_cons]
        omega
      rw [if_neg (fun h => h2 h.1)]
      show q :: rest = if _ then _ else _
      rw [if_neg (fun h => hlen h.2.1)]

/-- The last character of a name followed by tokens is the last character
of the last of them. -/
theorem last_token_char : ∀ {items : List (Str × Str)} {a : Str}, a ≠ [] → spaced items →
    (a ++ words items).getLast? = ((a :: items.map Prod.snd).getLast?).bind List.getLast? := by
  intro items
  induction items with
  | nil =>
    intro a _ _
    simp [words]
  | cons p more ih =>
    intro a ha hs
    obtain ⟨sep, t⟩ := p
    have ht : t ≠ [] := (hs (sep, t) (List.mem_cons_self _ _)).2.1
    have hs1 : spaced more := fun q hq => hs q (List.mem_cons_of_mem _ hq)
    have hne : a ++ sep ++ t ≠ [] := by simp [ht]
    have h := @ih (a ++ sep ++ t) hne hs1
    have e : a ++ words ((sep, t) :: more) = (a ++ sep ++ t) ++ words more := by
      simp [words, List.append_assoc]
    rw [e, h]
    cases more with
    | nil =>
      show (a ++ sep ++ t).getLast? = t.getLast?
      exact List.getLast?_append_of_ne_nil _ ht
    | cons m ms => simp

theorem tokens_result_normal (n : Str) {ts : List Str}
    (h : ∀ t ∈ ts, t.head? ≠ some '<' ∧ t.head? ≠ some '>') (c : command_t) :
    tokens_result n ts c =
      { c with name := n,
               args := (ts.filter (fun t => decide (t ≠ ['&']))).map strip_quotes,
               arg_count := (ts.filter (fun t => decide (t ≠ ['&']))).length } := by
  unfold tokens_result
  rw [parse_tokens_normal ts _ _ h]
  simp [finish]

theorem partial_is_normal {p : Str} (hp : token p) (hp1 : p.head? ≠ some '<')
    (hp2 : p.head? ≠ some '>') :
    token (p ++ ['?']) ∧ p ++ ['?'] ≠ ['|'] ∧ p ++ ['?'] ≠ ['&'] ∧
    (p ++ ['?']).head? ≠ some '<' ∧ (p ++ ['?']).head? ≠ some '>' ∧
    strip_quotes (p ++ ['?']) = p ++ ['?'] := by
  obtain ⟨hne, hall⟩ := hp
  cases p with
  | nil => exact absurd rfl hne
  | cons x xs =>
    have hlast : (x :: xs ++ ['?']).getLast? = some '?' :=
      List.getLast?_concat (x :: xs)
    refine ⟨⟨by simp, ?_⟩, ?_, ?_, by simpa using hp1, by simpa using hp2, ?_⟩
    · intro c hc
      rcases List.mem_append.mp hc with h | h
      · exact hall c h
      · simp only [List.mem_singleton] at h
        subst h
        decide
    · intro he
      have := congrArg List.length he
      simp at this
    · intro he
      have := congrArg List.length he
      simp at this
    · unfold strip_quotes
      rw [if_neg]
      rintro ⟨_, ha | ha⟩
      · rw [hlast] at ha
        exact absurd ha.2 (by decide)
      · rw [hlast] at ha
        exact absurd ha.2 (by decide)

/-! ## The scan of a directory -/

theorem scan_entries_stops (head : Str) : ∀ (entries sl : List Str),
    scan_entries head entries sl ≠ Outcome.out_of_fuel := by
  intro entries
  induction entries with
  | nil => intro sl; simp [scan_entries]
  | cons d rest ih =>
    intro sl
    rw [scan_entries]
    by_cases hm : strncmp_eq d head head.length = true
    · rw [if_pos hm]
      unfold add_suggestion
      by_cases hfull : 1024 ≤ sl.length ∨ 256 ≤ d.length
      · rw [if_pos hfull]
        simp
      · rw [if_neg hfull]
        exact ih _
    · rw [if_neg hm]
      exact ih _

/-- The scan adds the names that match, in order, as long as there is a row
left for each of them and each fits its row; otherwise it writes outside
`suggestion_list`. -/
theorem scan_entries_eq (head : Str) : ∀ (entries sl : List Str), sl.length ≤ 1024 →
    scan_entries head entries sl =
      if sl.length + (entries.filter (fun d => strncmp_eq d head head.length)).length ≤ 1024 ∧
          ∀ e ∈ entries.filter (fun d => strncmp_eq d head head.length), e.length < 256
      then Outcome.done (sl ++ entries.filter (fun d => strncmp_eq d head head.length))
      else Outcome.fault Fault.overflow := by
  intro entries
  induction entries with
  | nil =>
    intro sl hsl
    simp [scan_entries, hsl]
  | cons d rest ih =>
    intro sl hsl
    rw [scan_entries]
    by_cases hm : strncmp_eq d head head.length = true
    · have hf : (d :: rest).filter (fun d => strncmp_eq d head head.length) =
          d :: rest.filter (fun d => strncmp_eq d head head.length) := by
        simp [List.filter, hm]
      rw [if_pos hm, hf]
      unfold add_suggestion
      by_cases hfull : 1024 ≤ sl.length ∨ 256 ≤ d.length
      · rw [if_pos hfull, if_neg]
        rintro ⟨h1, h2⟩
        rcases hfull with h | h
        · simp only [List.length_cons] at h1
          omega
        · have := h2 d (List.mem_cons_self _ _)
          omega
      · rw [if_neg hfull]
        have hfull1 : sl.length < 1024 ∧ d.length < 256 :=
          ⟨Nat.lt_of_not_le (fun h => hfull (Or.inl h)),
           Nat.lt_of_not_le (fun h => hfull (Or.inr h))⟩
        simp only []
        rw [ih (sl ++ [d]) (by simp only [List.length_append, List.length_singleton]; omega)]
        have hcond : ((sl ++ [d]).length +
              (rest.filter (fun d => strncmp_eq d head head.length)).length ≤ 1024 ∧
            ∀ e ∈ rest.filter (fun d => strncmp_eq d head head.length), e.length < 256) ↔
            (sl.length + (d :: rest.filter (fun d => strncmp_eq d head head.length)).length
              ≤ 1024 ∧
            ∀ e ∈ d :: rest.filter (fun d => strncmp_eq d head head.length),
              e.length < 256) := by
          simp only [List.length_append, List.length_singleton, List.length_cons,
            List.length_nil, List.mem_cons, forall_eq_or_imp]
          constructor
          · rintro ⟨h1, h2⟩
            exact ⟨by omega, hfull1.2, h2⟩
          · rintro ⟨h1, _, h2⟩
            exact ⟨by omega, h2⟩
        by_cases hc : (sl ++ [d]).length +
              (rest.filter (fun d => strncmp_eq d head head.length)).length ≤ 1024 ∧
            ∀ e ∈ rest.filter (fun d => strncmp_eq d head head.length), e.length < 256
        · rw [if_pos hc, if_pos (hcond.mp hc)]
          simp
        · rw [if_neg hc, if_neg (fun h => hc (hcond.mpr h))]
    · have hf : (d :: rest).filter (fun d => strncmp_eq d head head.length) =
          rest.filter (fun d => strncmp_eq d head head.length) := by
        simp [List.filter, hm]
      rw [if_neg hm, hf]
      exact ih sl hsl

/-- The scan when every match finds its row. -/
theorem scan_entries_done (head : Str) (entries sl : List Str)
    (hcount : sl.length + (entries.filter (fun d => strncmp_eq d head head.length)).length
      ≤ 1024)
    (hrows : ∀ e ∈ entries.filter (fun d => strncmp_eq d head head.length), e.length < 256) :
    scan_entries head entries sl =
      Outcome.done (sl ++ entries.filter (fun d => strncmp_eq d head head.length)) := by
  rw [scan_entries_eq head entries sl (by omega), if_pos ⟨hcount, hrows⟩]

/-- The scan when there are more matches than rows left. -/
theorem scan_entries_overflow (head : Str) (entries sl : List Str) (hsl : sl.length ≤ 1024)
    (hcount : 1024 < sl.length +
      (entries.filter (fun d => strncmp_eq d head head.length)).length) :
    scan_entries head entries sl = Outcome.fault Fault.overflow := by
  rw [scan_entries_eq head entries sl hsl, if_neg]
  rintro ⟨h1, _⟩
  omega

theorem Outcome.bind_stops {α β : Type} (o : Outcome α) (f : α → Outcome β)
    (ho : o ≠ Outcome.out_of_fuel) (hf : ∀ a, f a ≠ Outcome.out_of_fuel) :
    o.bind f ≠ Outcome.out_of_fuel := by
  cases o with
  | done a => exact hf a
  | fault e => simp [Outcome.bind]
  | out_of_fuel => exact absurd rfl ho

theorem get_possible_list_stops (os : os_t) (head path : Str) (sl : List Str) :
    get_possible_list os head path sl ≠ Outcome.out_of_fuel := by
  unfold get_possible_list
  split
  · simp
  · exact scan_entries_stops _ _ _

/-! ## The argument vector -/

theorem shift_args_eq : ∀ (i : Nat) (a : List (Option Str)), i < a.length →
    shift_args i a = a.getD 0 none :: (a.take i ++ a.drop (i + 1)) := by
  intro i
  induction i with
  | zero =>
    intro a h
    cases a with
    | nil => simp at h
    | cons x xs => simp [shift_args]
  | succ i ih =>
    intro a h
    have h1 : i < (a.set (i + 1) (a.getD i none)).length := by
      rw [List.length_set]
      omega
    rw [shift_args, ih _ h1]
    have hi : i < a.length := by omega
    have e1 : (a.set (i + 1) (a.getD i none)).getD 0 none = a.getD 0 none := by
      cases a with
      | nil => simp at h
      | cons x xs => simp
    have e2 : (a.set (i + 1) (a.getD i none)).take i = a.take i :=
      List.take_set_of_lt _ _ (Nat.lt_succ_self i)
    have e3 : (a.set (i + 1) (a.getD i none)).drop (i + 1) = a.getD i none :: a.drop (i + 2) := by
      rw [List.drop_set]
      simp only [Nat.lt_irrefl, if_false, Nat.sub_self]
      rw [List.drop_eq_getElem_cons h, List.set_cons_zero]
    have e4 : a.take (i + 1) = a.take i ++ [a.getD i none] := by
      rw [List.take_succ]
      simp [List.getElem?_eq_getElem hi]
    rw [e1, e2, e3, e4]
    simp

theorem rebuild_eq (name : Str) (args : List Str) (junk1 junk2 : Option Str) :
    ((shift_args args.length (args.map some ++ [junk1, junk2])).set 0 (some name)).set
        (args.length + 1) none =
      some name :: args.map some ++ [none] := by
  rw [shift_args_eq _ _ (by simp)]
  have e1 : (args.map some ++ [junk1, junk2]).take args.length = args.map some := by
    rw [List.take_append_of_le_length (by simp)]
    simp [List.take_of_length_le]
  have e2 : (args.map some ++ [junk1, junk2]).drop (args.length + 1) = [junk2] := by
    rw [List.drop_append_eq_append_drop]
    simp [List.drop_of_length_le]
  rw [e1, e2]
  simp only [List.set_cons_zero]
  rw [← List.cons_append, List.set_append_right _ _ (by simp)]
  simp

/-- On a Command with an empty name that is not an autocomplete request,
`process_command` returns `SUCCESS` and does nothing else. -/
theorem process_command_empty_name (os : os_t) (c : command_t) (st : shell_state)
    (hac : c.auto_complete = false) (hname : c.name = []) :
    process_command os c st = Outcome.done (return_codes.SUCCESS, st) := by
  have hpos : ∃ k, chain_length c = k + 1 := by
    obtain ⟨a, b, d, e, f, g, nx⟩ := c
    cases nx with
    | none => exact ⟨0, rfl⟩
    | some x => exact ⟨chain_length x, rfl⟩
  obtain ⟨k, hk⟩ := hpos
  unfold process_command
  rw [hk, process_command_aux]
  simp [hac, hname]

/-- The test `strncmp(d_name, head, strlen(head)) == 0` says that `head` is a prefix
of `d_name`. -/
theorem strncmp_eq_isPrefixOf (d_name head : Str) :
    strncmp_eq d_name head head.length = head.isPrefixOf d_name := by
  rw [Bool.eq_iff_iff, List.isPrefixOf_iff_prefix, List.prefix_iff_eq_take]
  unfold strncmp_eq
  simp only [List.take_length, beq_iff_eq]
  exact eq_comm

/-- The file-name completion branch of `process_command` (main.c:566-581) on
a single Command without redirection whose last argument is `p?`, when the
path of the current directory fits `cwd`, the matches fit `suggestion_list`
and the name fits `auto_complete_command`. -/
theorem process_command_file_completion (os : os_t) (c : command_t) (st : shell_state)
    (D : List Str) (init : List Str) (p : Str)
    (hac : c.auto_complete = true) (hnext : c.next = none)
    (hred : c.redirects = [none, none, none]) (hcount : c.arg_count = c.args.length)
    (hargs : c.args = init ++ [p ++ ['?']]) (hD : os.opendir os.getcwd = some D)
    (hcwd : os.getcwd.length < 250) (hname : c.name.length ≤ 256)
    (hrows : (D.filter (fun e => p.isPrefixOf e)).length ≤ 1024)
    (hrow : ∀ e ∈ D.filter (fun e => p.isPrefixOf e), e.length < 256) :
    ∃ r : return_codes × shell_state,
      process_command os c st = Outcome.done r ∧ r.1 = return_codes.SUCCESS ∧
      r.2.suggestion_list = D.filter (fun e => p.isPrefixOf e) ∧
      r.2.forks = st.forks := by
  have hk : chain_length c = 1 := by
    obtain ⟨a, b, d, e, f, g, nx⟩ := c
    simp only at hnext
    subst hnext
    rfl
  have hlast : c.args.getD (c.arg_count - 1) [] = p ++ ['?'] := by
    rw [hcount, hargs]
    simp
  have hcnt : c.arg_count ≠ 0 := by
    rw [hcount, hargs]
    simp
  have hfilter : (fun d_name => strncmp_eq d_name p p.length) = fun e => p.isPrefixOf e := by
    funext e
    exact strncmp_eq_isPrefixOf e p
  have hscan : scan_entries p D [] = Outcome.done (D.filter (fun e => p.isPrefixOf e)) := by
    rw [scan_entries_done p D [] (by rw [hfilter]; simpa using hrows) (by rw [hfilter]; exact hrow),
      hfilter, List.nil_append]
  unfold process_command
  rw [hk, process_command_aux]
  simp only [hac, if_true, hnext, hred, hcnt, false_and, if_false, hlast]
  simp [get_possible_file_list, hD, hscan, Nat.not_le.mpr hcwd, Nat.not_lt.mpr hname]

/-- The file-name completion branch when more than 1024 entries of the
directory match: the scan writes past the last row of `suggestion_list`. -/
theorem process_command_file_completion_overflow (os : os_t) (c : command_t)
    (st : shell_state) (D : List Str) (init : List Str) (p : Str)
    (hac : c.auto_complete = true) (hnext : c.next = none)
    (hred : c.redirects = [none, none, none]) (hcount : c.arg_count = c.args.length)
    (hargs : c.args = init ++ [p ++ ['?']]) (hD : os.opendir os.getcwd = some D)
    (hcwd : os.getcwd.length < 250)
    (hrows : 1024 < (D.filter (fun e => p.isPrefixOf e)).length) :
    process_command os c st = Outcome.fault Fault.overflow := by
  have hk : chain_length c = 1 := by
    obtain ⟨a, b, d, e, f, g, nx⟩ := c
    simp only at hnext
    subst hnext
    rfl
  have hlast : c.args.getD (c.arg_count - 1) [] = p ++ ['?'] := by
    rw [hcount, hargs]
    simp
  have hcnt : c.arg_count ≠ 0 := by
    rw [hcount, hargs]
    simp
  have hfilter : (fun d_name => strncmp_eq d_name p p.length) = fun e => p.isPrefixOf e := by
    funext e
    exact strncmp_eq_isPrefixOf e p
  have hscan : scan_entries p D [] = Outcome.fault Fault.overflow :=
    scan_entries_overflow p D [] (by simp) (by rw [hfilter]; simpa using hrows)
  unfold process_command
  rw [hk, process_command_aux]
  simp only [hac, if_true, hnext, hred, hcnt, false_and, if_false, hlast]
  simp [get_possible_file_list, hD, hscan, Nat.not_le.mpr hcwd]

/-- The file-name completion branch when the path of the current directory
has 250 characters or more: `getcwd` fails and `opendir` is called on an array
that was not filled. -/
theorem process_command_file_completion_cwd (os : os_t) (c : command_t)
    (st : shell_state) (init : List Str) (p : Str)
    (hac : c.auto_complete = true) (hnext : c.next = none)
    (hred : c.redirects = [none, none, none]) (hcount : c.arg_count = c.args.length)
    (hargs : c.args = init ++ [p ++ ['?']]) (hcwd : 250 ≤ os.getcwd.length) :
    process_command os c st = Outcome.fault Fault.unwritten := by
  have hk : chain_length c = 1 := by
    obtain ⟨a, b, d, e, f, g, nx⟩ := c
    simp only at hnext
    subst hnext
    rfl
  have hlast : c.args.getD (c.arg_count - 1) [] = p ++ ['?'] := by
    rw [hcount, hargs]
    simp
  have hcnt : c.arg_count ≠ 0 := by
    rw [hcount, hargs]
    simp
  unfold process_command
  rw [hk, process_command_aux]
  simp only [hac, if_true, hnext, hred, hcnt, false_and, if_false, hlast]
  simp [get_possible_file_list, hcwd]

theorem chain_length_pos (c : command_t) : 0 < chain_length c := by
  obtain ⟨a, b, d, e, f, g, nx⟩ := c
  cases nx with
  | none => exact Nat.lt_succ_self 0
  | some x => exact Nat.succ_pos _

theorem chain_length_next {c next : command_t} (h : c.next = some next) :
    chain_length c = chain_length next + 1 := by
  obtain ⟨a, b, d, e, f, g, nx⟩ := c
  simp only at h
  subst h
  rfl

theorem chain_length_flag (c : command_t) :
    chain_length { c with auto_complete := true } = chain_length c := by
  obtain ⟨a, b, d, e, f, g, nx⟩ := c
  cases nx <;> rfl

theorem populate_suggestion_list_stops (os : os_t) (head : Str) (sl : List Str) :
    populate_suggestion_list os head sl ≠ Outcome.out_of_fuel := by
  unfold populate_suggestion_list
  split
  · simp
  · refine Outcome.bind_stops _ _ (get_possible_list_stops _ _ _ _) (fun sl1 => ?_)
    refine Outcome.bind_stops _ _ (get_possible_list_stops _ _ _ _) (fun sl2 => ?_)
    refine Outcome.bind_stops _ _ (get_possible_list_stops _ _ _ _) (fun sl3 => ?_)
    refine Outcome.bind_stops _ _ (get_possible_list_stops _ _ _ _) (fun sl4 => ?_)
    exact scan_entries_stops _ _ _

theorem get_possible_file_list_stops (os : os_t) (head : Str) (sl : List Str) :
    get_possible_file_list os head sl ≠ Outcome.out_of_fuel := by
  unfold get_possible_file_list
  split
  · simp
  · split
    · simp
    · split
      · simp
      · exact scan_entries_stops _ _ _

/-- The dispatcher stops by itself: the bound on the recursion along `next`
is never what ends it. -/
theorem process_command_aux_stops (os : os_t) :
    ∀ (k : Nat) (c : command_t) (st : shell_state), chain_length c ≤ k →
      process_command_aux os k c st ≠ Outcome.out_of_fuel := by
  intro k
  induction k with
  | zero =>
    intro c st h
    have := chain_length_pos c
    omega
  | succ k ih =>
    intro c st h
    rw [process_command_aux]
    by_cases hac : c.auto_complete = true
    · simp only [hac, if_true]
      cases hn : c.next with
      | some next =>
        have hl := chain_length_next hn
        have h1 : chain_length { next with auto_complete := true } ≤ k := by
          rw [chain_length_flag]
          omega
        have := ih { next with auto_complete := true } { st with suggestion_list := [] } h1
        simp only []
        cases hr : process_command_aux os k { next with auto_complete := true }
            { st with suggestion_list := [] } with
        | done r => simp
        | fault e => simp
        | out_of_fuel => exact absurd hr this
      | none =>
        simp only []
        split
        · split
          · split <;> simp
          · simp
          · rename_i heq
            exact absurd heq (populate_suggestion_list_stops _ _ _)
        · split
          · split
            · simp
            · split
              · split <;> simp
              · simp
              · rename_i heq
                exact absurd heq (get_possible_file_list_stops _ _ _)
          · split
            · split <;> simp
            · simp
            · rename_i heq
              exact absurd heq (get_possible_file_list_stops _ _ _)
    · have hac1 : c.auto_complete = false := by simpa using hac
      simp only [hac1, Bool.false_eq_true, if_false]
      split
      · simp
      · split
        · simp
        · split
          · split <;> simp
          · split <;> simp

theorem process_command_terminates (os : os_t) (c : command_t) (st : shell_state) :
    process_command os c st ≠ Outcome.out_of_fuel :=
  process_command_aux_stops os _ c st (Nat.le_refl _)

/-! ## The count of arguments -/

theorem parse_arg_count (t : Str) (c : command_t) (i : Nat) (h : i = c.args.length) :
    (parse_arg t c i).2 = (parse_arg t c i).1.args.length := by
  unfold parse_arg
  split
  · exact h
  · split
    · exact h
    · simp [h]

theorem parse_command_loop_count (fresh : command_t) :
    ∀ (f : Nat) (save : Str) (cmd : command_t) (i : Nat) (c : command_t),
      i = cmd.args.length → parse_command_loop fresh f save cmd i = Outcome.done c →
      c.arg_count = c.args.length := by
  intro f
  induction f with
  | zero =>
    intro save cmd i c _ h
    rw [parse_command_loop] at h
    exact Outcome.noConfusion h
  | succ f ih =>
    intro save cmd i c hi h
    cases hs : strtok save with
    | none =>
      rw [parse_command_loop_none fresh f hs] at h
      injection h with h1
      subst h1
      exact hi
    | some r =>
      obtain ⟨t, d, save1⟩ := r
      by_cases hp : t = ['|']
      · subst hp
        cases d with
        | false =>
          rw [parse_command_loop_pipe_end fresh f hs] at h
          exact Outcome.noConfusion h
        | true =>
          rw [parse_command_loop_pipe fresh f hs] at h
          cases hr : parse_command_aux fresh f (save1.dropWhile is_splitter) fresh with
          | done c1 =>
            rw [hr] at h
            exact ih [] { cmd with next := some c1 } i c hi h
          | fault e =>
            rw [hr] at h
            exact Outcome.noConfusion h
          | out_of_fuel =>
            rw [hr] at h
            exact Outcome.noConfusion h
      · by_cases hfit : t.length < 1024
        · rw [parse_command_loop_arg fresh f hs hp hfit] at h
          exact ih save1 _ _ c (parse_arg_count t cmd i hi) h
        · rw [parse_command_loop_long fresh f hs (Nat.not_lt.mp hfit)] at h
          exact Outcome.noConfusion h

/-- The head Command that `parse_command` returns has `arg_count` equal to
the number of its arguments. -/
theorem parse_command_arg_count (fresh : command_t) (line : Str) (c0 c : command_t)
    (h : parse_command fresh line c0 = Outcome.done c) : c.arg_count = c.args.length := by
  unfold parse_command at h
  rw [parse_command_aux] at h
  cases hs : strtok (trim line) with
  | none =>
    rw [hs] at h
    exact Outcome.noConfusion h
  | some r =>
    obtain ⟨t, d, save⟩ := r
    rw [hs] at h
    refine parse_command_loop_count fresh _ save _ 0 c ?_ h
    rfl

/-! ## What follows the tokens of the head Command -/

/-- The request parsed from a line `c p?`, where `c` is a command name
followed by any tokens that are neither `|` nor redirections and `p` is a
non-empty partial (no whitespace, not beginning with `<` or `>`), when every
array is large enough: the path of the current directory has fewer than 250
characters, the name has at most 256, the tokens have fewer than 1024, at
most 1024 entries of the listing `D` have `p` as a prefix and each of them
has fewer than 256 characters. The Suggestion Set is left holding exactly
those entries, in enumeration order, whatever it held before, and
`process_command` returns `SUCCESS`. -/
theorem file_name_suggestions (fresh : command_t) (os : os_t) (st : shell_state)
    (D : List Str) (lead n sep p trail : Str) (items : List (Str × Str))
    (hl : blank lead) (hn : token n) (hitems : spaced items) (hfit : fits items)
    (hnorm : ∀ q ∈ items, q.2 ≠ ['|'] ∧ q.2.head? ≠ some '<' ∧ q.2.head? ≠ some '>')
    (hsep : sep ≠ [] ∧ blank sep) (hp : token p) (hp1 : p.head? ≠ some '<')
    (hp2 : p.head? ≠ some '>') (hpfit : (p ++ ['?']).length < 1024) (ht : blank trail)
    (hD : os.opendir os.getcwd = some D) (hcwd : os.getcwd.length < 250)
    (hname : n.length ≤ 256)
    (hrows : (D.filter (fun e => p.isPrefixOf e)).length ≤ 1024)
    (hrow : ∀ e ∈ D.filter (fun e => p.isPrefixOf e), e.length < 256) :
    ∃ (c : command_t) (r : return_codes × shell_state),
      parse_command fresh (lead ++ (n ++ words items ++ sep ++ p ++ ['?']) ++ trail)
        command_zero = Outcome.done c ∧
      process_command os c st = Outcome.done r ∧ r.1 = return_codes.SUCCESS ∧
      r.2.suggestion_list = D.filter (fun e => p.isPrefixOf e) := by
  obtain ⟨q1, q2, q3, q4, q5, q6⟩ := partial_is_normal hp hp1 hp2
  have hall : spaced (items ++ [(sep, p ++ ['?'])]) :=
    spaced_append hitems (spaced_singleton hsep q1)
  have hfall : fits (items ++ [(sep, p ++ ['?'])]) :=
    fits_append hfit (fits_singleton hpfit)
  have hbar : ∀ q ∈ items ++ [(sep, p ++ ['?'])], q.2 ≠ ['|'] := by
    intro q hq
    rcases List.mem_append.mp hq with h | h
    · exact (hnorm q h).1
    · simp only [List.mem_singleton] at h
      subst h
      exact q2
  have hnormal : ∀ t ∈ (items ++ [(sep, p ++ ['?'])]).map Prod.snd,
      t.head? ≠ some '<' ∧ t.head? ≠ some '>' := by
    intro t ht1
    obtain ⟨q, hq, rfl⟩ := List.mem_map.mp ht1
    rcases List.mem_append.mp hq with h | h
    · exact (hnorm q h).2
    · simp only [List.mem_singleton] at h
      subst h
      exact ⟨q4, q5⟩
  have hline : n ++ words items ++ sep ++ p ++ ['?'] =
      n ++ words (items ++ [(sep, p ++ ['?'])]) := by
    simp [words_append, words]
  have hlast : (n ++ words (items ++ [(sep, p ++ ['?'])])).getLast? = some '?' := by
    rw [← hline]
    simp
  rw [hline]
  have hparse := parse_command_segment fresh hl hn hall hfall hbar ht command_zero
  obtain ⟨e1, e2, e3, e4, e5⟩ := set_flags_fields
    (n ++ words (items ++ [(sep, p ++ ['?'])]))
    (tokens_result n ((items ++ [(sep, p ++ ['?'])]).map Prod.snd) command_zero)
  have hres := tokens_result_normal n hnormal command_zero
  obtain ⟨r, hr1, hr2, hr3, _⟩ := process_command_file_completion os
    (set_flags (n ++ words (items ++ [(sep, p ++ ['?'])]))
      (tokens_result n ((items ++ [(sep, p ++ ['?'])]).map Prod.snd) command_zero))
    st D (((items.map Prod.snd).filter (fun t => decide (t ≠ ['&']))).map strip_quotes) p
    (by rw [set_flags_auto_complete, hlast]; simp)
    (by rw [e5, hres]; rfl)
    (by rw [e4, hres]; rfl)
    (by rw [e3, e2, hres]; simp)
    (by
      rw [e2, hres]
      simp only [List.map_append, List.filter_append, List.map_cons, List.map_nil]
      have : List.filter (fun t => decide (t ≠ ['&'])) [p ++ ['?']] = [p ++ ['?']] := by
        simp [q3]
      rw [this]
      simp [q6])
    hD hcwd
    (by rw [e1, (tokens_result_fields _ _ _).1]; exact hname) hrows hrow
  exact ⟨_, r, hparse, hr1, hr2, hr3⟩

/-- The scenario of the specification: `cat rep?` in a directory listing
`report.txt`, `report2.txt`, `readme.md` leaves `report.txt`, `report2.txt`. -/
theorem file_name_suggestions_example :
    ∃ (c : command_t) (r : return_codes × shell_state),
      parse_command command_zero "cat rep?".toList command_zero = Outcome.done c ∧
      process_command
        { getcwd := "/home".toList,
          opendir := fun _ => some ["report.txt".toList, "report2.txt".toList,
            "readme.md".toList],
          chdir := fun _ => none } c
        { suggestion_list := ["stale".toList], auto_complete_command := [], out := [],
          forks := 0, waits := 0, chdirs := [] } = Outcome.done r ∧
      r.1 = return_codes.SUCCESS ∧
      r.2.suggestion_list = ["report.txt".toList, "report2.txt".toList] :=
  ⟨_, _, rfl, rfl, rfl, rfl⟩

/-! ## The background marker -/

theorem set_flags_amp {buf : Str} (h : buf.getLast? = some '&') (c : command_t) :
    set_flags buf c = { c with background := true } := by
  have h1 : buf.getLast? ≠ some '?' := by
    rw [h]
    decide
  simp [set_flags, h, h1]

/-- A simple command text followed by whitespace and `&`: the flag is set and
the marker is not an argument. -/
theorem parse_command_background_spaced (fresh c : command_t) {lead n sep trail : Str}
    {items : List (Str × Str)} (hl : blank lead) (hn : plain n) (hs : spaced items)
    (hfit : fits items) (hp : ∀ p ∈ items, plain p.2) (hsep : sep ≠ [] ∧ blank sep)
    (ht : blank trail) :
    parse_command fresh (lead ++ (n ++ words items ++ sep ++ ['&']) ++ trail) c =
      Outcome.done { c with name := n, background := true, args := items.map Prod.snd,
                            arg_count := items.length } := by
  have hamp : token ['&'] := by decide
  have hall : spaced (items ++ [(sep, ['&'])]) := spaced_append hs (spaced_singleton hsep hamp)
  have hfall : fits (items ++ [(sep, ['&'])]) := fits_append hfit (fits_singleton (by decide))
  have hbar : ∀ p ∈ items ++ [(sep, ['&'])], p.2 ≠ ['|'] := by
    intro p hp1
    rcases List.mem_append.mp hp1 with h | h
    · exact plain_ne_bar (hp p h)
    · simp only [List.mem_singleton] at h
      subst h
      intro he
      injection he with he1 _
      exact absurd he1 (by decide)
  have hline : n ++ words items ++ sep ++ ['&'] = n ++ words (items ++ [(sep, ['&'])]) := by
    simp [words_append, words]
  have hlast : (n ++ words (items ++ [(sep, ['&'])])).getLast? = some '&' := by
    rw [← hline]
    simp
  have hkept : ∀ t ∈ items.map Prod.snd, kept t := by
    intro t ht1
    obtain ⟨p, hp1, rfl⟩ := List.mem_map.mp ht1
    exact plain_kept (hp p hp1)
  rw [hline, parse_command_segment fresh hl (plain_token hn) hall hfall hbar ht c,
    set_flags_amp hlast]
  simp only [tokens_result, List.map_append, List.map_cons, List.map_nil, parse_tokens_append,
    parse_tokens_cons, parse_tokens_nil, parse_arg_amp, parse_tokens_kept _ _ _ hkept]
  simp [finish]

/-- A simple command text with `&` right after its last token: the flag is
set and the marker stays at the end of the last argument. -/
theorem parse_command_background_adjacent (fresh c : command_t) {lead n sep t trail : Str}
    {items : List (Str × Str)} (hl : blank lead) (hn : plain n) (hs : spaced items)
    (hfit : fits items) (hp : ∀ p ∈ items, plain p.2) (hsep : sep ≠ [] ∧ blank sep)
    (htp : plain t) (htfit : (t ++ ['&']).length < 1024) (ht : blank trail) :
    parse_command fresh (lead ++ (n ++ words items ++ sep ++ t ++ ['&']) ++ trail) c =
      Outcome.done { c with name := n, background := true,
                            args := items.map Prod.snd ++ [t ++ ['&']],
                            arg_count := items.length + 1 } := by
  obtain ⟨x, xs, rfl, g1, g2, g3, g4, g5, g6, g7⟩ := plain_head htp
  have hlast1 : (x :: xs ++ ['&']).getLast? = some '&' := List.getLast?_concat (x :: xs)
  have hk : kept (x :: xs ++ ['&']) := by
    refine ⟨⟨by simp, ?_⟩, ?_, ?_, by simpa using g4, by simpa using g5, ?_⟩
    · intro c1 hc
      rcases List.mem_append.mp hc with h | h
      · exact (plain_token htp).2 c1 h
      · simp only [List.mem_singleton] at h
        subst h
        decide
    · intro he
      have := congrArg List.length he
      simp at this
    · intro he
      have := congrArg List.length he
      simp at this
    · unfold strip_quotes
      rw [if_neg]
      rintro ⟨_, ha | ha⟩
      · rw [hlast1] at ha
        exact absurd ha.2 (by decide)
      · rw [hlast1] at ha
        exact absurd ha.2 (by decide)
  have hall : spaced (items ++ [(sep, x :: xs ++ ['&'])]) :=
    spaced_append hs (spaced_singleton hsep hk.1)
  have hfall : fits (items ++ [(sep, x :: xs ++ ['&'])]) :=
    fits_append hfit (fits_singleton htfit)
  have hkept : ∀ u ∈ (items ++ [(sep, x :: xs ++ ['&'])]).map Prod.snd, kept u := by
    intro u hu
    obtain ⟨p, hp1, rfl⟩ := List.mem_map.mp hu
    rcases List.mem_append.mp hp1 with h | h
    · exact plain_kept (hp p h)
    · simp only [List.mem_singleton] at h
      subst h
      exact hk
  have hline : n ++ words items ++ sep ++ (x :: xs) ++ ['&'] =
      n ++ words (items ++ [(sep, x :: xs ++ ['&'])]) := by
    simp [words_append, words]
  have hlast : (n ++ words (items ++ [(sep, x :: xs ++ ['&'])])).getLast? = some '&' := by
    rw [← hline]
    exact List.getLast?_concat _
  rw [hline, parse_command_segment fresh hl (plain_token hn) hall hfall
    (fun p h => (hkept p.2 (List.mem_map_of_mem _ h)).2.1) ht c, set_flags_amp hlast,
    tokens_result_kept n hkept]
  simp

/-! ## The built-in `cd` -/

/-- On a Command named `cd` that is not an autocomplete request and has at
least one argument, `process_command` calls `chdir` on the first argument and
returns `SUCCESS`; the text of the error is printed when the call fails. Only
the log of `chdir` calls and the output change. -/
theorem process_command_cd (os : os_t) (c : command_t) (st : shell_state)
    (hac : c.auto_complete = false) (hname : c.name = "cd".toList)
    (hcount : 0 < c.arg_count) :
    process_command os c st =
      Outcome.done (return_codes.SUCCESS,
        { st with
          chdirs := st.chdirs ++ [c.args.getD 0 []],
          out := match os.chdir (c.args.getD 0 []) with
            | none => st.out
            | some err => st.out ++ "-shellgibi: cd: ".toList ++ err ++ ['\n'] }) := by
  obtain ⟨k, hk⟩ : ∃ k, chain_length c = k + 1 :=
    ⟨chain_length c - 1, by have := chain_length_pos c; omega⟩
  unfold process_command
  rw [hk, process_command_aux]
  have h1 : c.name ≠ [] := by rw [hname]; decide
  have h2 : c.name ≠ "exit".toList := by rw [hname]; decide
  simp only [hac, Bool.false_eq_true, if_false, h1, h2]
  rw [if_pos ⟨hname, hcount⟩]
  cases h : os.chdir (c.args.getD 0 []) with
  | none => simp
  | some err => simp [hname, sysname]

/-- On a Command named `cd` that is not an autocomplete request and has no
argument, `process_command` calls `fork` and makes no `chdir` call. -/
theorem process_command_cd_no_arg (os : os_t) (c : command_t) (st : shell_state)
    (hac : c.auto_complete = false) (hname : c.name = "cd".toList)
    (hcount : c.arg_count = 0) :
    process_command os c st =
      Outcome.done (return_codes.SUCCESS,
        if c.background then { st with forks := st.forks + 1 }
        else { st with forks := st.forks + 1, waits := st.waits + 1 }) := by
  obtain ⟨k, hk⟩ : ∃ k, chain_length c = k + 1 :=
    ⟨chain_length c - 1, by have := chain_length_pos c; omega⟩
  unfold process_command
  rw [hk, process_command_aux]
  have h1 : c.name ≠ [] := by rw [hname]; decide
  have h2 : c.name ≠ "exit".toList := by rw [hname]; decide
  simp only [hac, Bool.false_eq_true, if_false, h1, h2]
  rw [if_neg (by rw [hcount]; simp)]
  cases c.background <;> simp

/-! ## The terminal mode when `prompt` returns -/

/-- Whenever `prompt` returns, it returns either `SUCCESS` with the terminal
back in the mode found on entry, or `EXIT` with the terminal in the mode
`prompt` set: `ICANON` and `ECHO` cleared. -/
theorem prompt_terminal_at_return (fresh : command_t) (show_prompt : Str)
    (terminal : termios) (oldbuf : Str) (keys : List Char) (command : command_t)
    (code : return_codes) (t1 : termios) (oldbuf1 out : Str) (c : command_t)
    (h : prompt fresh show_prompt terminal oldbuf keys command =
      prompt_outcome.returned code t1 oldbuf1 out c) :
    (code = return_codes.SUCCESS ∧ t1 = terminal) ∨
    (code = return_codes.EXIT ∧ t1 = ⟨false, false⟩ ∧ c = command ∧ oldbuf1 = oldbuf) := by
  unfold prompt at h
  simp only at h
  split at h
  · exact prompt_outcome.noConfusion h
  · injection h with h1 h2 h3 h4 h5
    exact Or.inr ⟨h1.symm, h2.symm, h5.symm, h3.symm⟩
  · repeat' first
      | exact prompt_outcome.noConfusion h
      | (injection h with h1 h2 h3 h4 h5; exact Or.inl ⟨h1.symm, h2.symm⟩)
      | split at h

/-- The read loop on ordinary keystrokes followed by the end-of-transmission
character: the keystrokes are echoed and the loop is left by `return EXIT`. -/
theorem prompt_loop_exit (oldbuf : Str) (keys : List Char) :
    ∀ (typed : List Char) (buf out : Str), (∀ c ∈ typed, ordinary_key c) →
      buf.length + typed.length + 1 < 4095 →
      prompt_loop oldbuf (typed ++ Char.ofNat 4 :: keys) buf 0 out =
        loop_end.returned_exit (out ++ typed ++ [Char.ofNat 4]) := by
  intro typed
  induction typed with
  | nil =>
    intro buf out _ hlen
    have h1 : ¬ 4095 ≤ buf.length + 1 := by simp at hlen; omega
    have e9 : Char.ofNat 4 ≠ Char.ofNat 9 := by decide
    have e127 : Char.ofNat 4 ≠ Char.ofNat 127 := by decide
    have e27 : Char.ofNat 4 ≠ Char.ofNat 27 := by decide
    have e91 : Char.ofNat 4 ≠ Char.ofNat 91 := by decide
    have e65 : Char.ofNat 4 ≠ Char.ofNat 65 := by decide
    have enl : Char.ofNat 4 ≠ '\n' := by decide
    simp [prompt_loop, e9, e127, e27, e91, e65, enl, h1]
  | cons c typed ih =>
    intro buf out hord hlen
    obtain ⟨o9, o127, o27, onl, o4⟩ := hord c (List.mem_cons_self _ _)
    have h1 : ¬ 4095 ≤ buf.length + 1 := by simp at hlen; omega
    have hrec := ih (buf ++ [c]) (out ++ [c]) (fun x hx => hord x (List.mem_cons_of_mem _ hx))
      (by simp at hlen ⊢; omega)
    rw [List.cons_append, prompt_loop]
    simp only [o9, o127, o27, onl, o4, if_false, false_and, List.length_append,
      List.length_singleton, h1]
    simp only [show ¬ (c = Char.ofNat 91 ∧ (0 : Nat) = 1) from fun h => absurd h.2 (by decide),
      show ¬ (c = Char.ofNat 65 ∧ (0 : Nat) = 2) from fun h => absurd h.2 (by decide), if_false]
    rw [hrec]
    simp

/-! ## The listing of suggestions -/

theorem spec_rows_five (a b c d e : Str) (rest : List Str) :
    spec_rows (a :: b :: c :: d :: e :: rest) = [a, b, c, d, e] :: spec_rows rest := by
  rw [spec_rows]

/-- The rows hold the candidates in order, no row is empty or longer than five,
and every row but the last holds five. -/
theorem spec_rows_shape (sl : List Str) :
    (spec_rows sl).flatten = sl ∧
    (∀ row ∈ spec_rows sl, 0 < row.length ∧ row.length ≤ 5) ∧
    (∀ row ∈ (spec_rows sl).dropLast, row.length = 5) := by
  induction sl using spec_rows.induct with
  | case1 a b c d e rest ih =>
    obtain ⟨h1, h2, h3⟩ := ih
    rw [spec_rows_five]
    refine ⟨?_, ?_, ?_⟩
    · simp [h1]
    · intro row hrow
      rcases List.mem_cons.1 hrow with h | h
      · subst h; simp
      · exact h2 row h
    · intro row hrow
      cases hr : spec_rows rest with
      | nil => rw [hr] at hrow; simp at hrow
      | cons x xs =>
        rw [hr, List.dropLast_cons₂] at hrow
        rcases List.mem_cons.1 hrow with h | h
        · subst h; rfl
        · exact h3 row (by rw [hr]; exact h)
  | case2 => simp [spec_rows]
  | case3 short h5 h0 =>
    match short, h5, h0 with
    | [], _, h0 => exact absurd rfl h0
    | [a], _, _ => simp [spec_rows]
    | [a, b], _, _ => simp [spec_rows]
    | [a, b, c], _, _ => simp [spec_rows]
    | [a, b, c, d], _, _ => simp [spec_rows]
    | a :: b :: c :: d :: e :: rest, h5, _ => exact absurd rfl (h5 a b c d e rest)

/-- The printing loop started at a multiple of five writes the rows. -/
theorem print_suggestion_loop_rows (sl : List Str) :
    ∀ k, print_suggestion_loop (5 * k) sl = spec_listing sl := by
  induction sl using spec_rows.induct with
  | case1 a b c d e rest ih =>
    intro k
    have h0 : ¬ (5 * k) % 5 = 4 := by omega
    have h1 : ¬ (5 * k + 1) % 5 = 4 := by omega
    have h2 : ¬ (5 * k + 1 + 1) % 5 = 4 := by omega
    have h3 : ¬ (5 * k + 1 + 1 + 1) % 5 = 4 := by omega
    have h4 : (5 * k + 1 + 1 + 1 + 1) % 5 = 4 := by omega
    have h5 : 5 * k + 1 + 1 + 1 + 1 + 1 = 5 * (k + 1) := by omega
    simp only [print_suggestion_loop, h0, h1, h2, h3, h4, if_true, if_false, h5, ih (k + 1)]
    simp [spec_listing, spec_rows_five, spec_row_text]
  | case2 => intro k; simp [print_suggestion_loop, spec_listing, spec_rows]
  | case3 short h5 h0 =>
    intro k
    have g0 : ¬ (5 * k) % 5 = 4 := by omega
    have g1 : ¬ (5 * k + 1) % 5 = 4 := by omega
    have g2 : ¬ (5 * k + 1 + 1) % 5 = 4 := by omega
    have g3 : ¬ (5 * k + 1 + 1 + 1) % 5 = 4 := by omega
    match short, h5, h0 with
    | [], _, h0 => exact absurd rfl h0
    | [a], _, _ =>
      simp [print_suggestion_loop, spec_listing, spec_rows, spec_row_text, g0]
    | [a, b], _, _ =>
      simp [print_suggestion_loop, spec_listing, spec_rows, spec_row_text, g0, g1]
    | [a, b, c], _, _ =>
      simp [print_suggestion_loop, spec_listing, spec_rows, spec_row_text, g0, g1, g2]
    | [a, b, c, d], _, _ =>
      simp [print_suggestion_loop, spec_listing, spec_rows, spec_row_text, g0, g1, g2, g3]
    | a :: b :: c :: d :: e :: rest, h5, _ => exact absurd rfl (h5 a b c d e rest)

/-- The printing of a Suggestion Set of one candidate. -/
theorem print_suggestions_single (s : Str) :
    print_suggestions [s] = ['\n'] ++ s ++ ['\n'] := by
  simp [print_suggestions]

/-- The printing of a Suggestion Set that has not exactly one candidate. -/
theorem print_suggestions_rows (sl : List Str) (h : sl.length ≠ 1) :
    print_suggestions sl = ['\n'] ++ spec_listing sl ++ ['\n'] := by
  have := print_suggestion_loop_rows sl 0
  simp only [Nat.mul_zero] at this
  simp [print_suggestions, h, this]

/-- An autocomplete request that returns has appended the printing of the
Suggestion Set it leaves, whichever of the completion branches ran. -/
theorem process_command_aux_prints (os : os_t) :
    ∀ (k : Nat) (c : command_t) (st : shell_state) (r : return_codes × shell_state),
      c.auto_complete = true → process_command_aux os k c st = Outcome.done r →
      r.2.out = st.out ++ print_suggestions r.2.suggestion_list := by
  intro k
  induction k with
  | zero => intro c st r _ h; rw [process_command_aux] at h; exact Outcome.noConfusion h
  | succ k ih =>
    intro c st r hac h
    rw [process_command_aux] at h
    simp only [hac, if_true] at h
    cases hn : c.next with
    | some next =>
      simp only [hn] at h
      split at h
      · rename_i r1 heq
        injection h with h
        subst h
        exact ih _ { st with suggestion_list := [] } r1 rfl heq
      · exact Outcome.noConfusion h
      · exact Outcome.noConfusion h
    | none =>
      simp only [hn] at h
      split at h
      · split at h
        · split at h
          · exact Outcome.noConfusion h
          · injection h with h; subst h; rfl
        · exact Outcome.noConfusion h
        · exact Outcome.noConfusion h
      · split at h
        · split at h
          · exact Outcome.noConfusion h
          · split at h
            · split at h
              · exact Outcome.noConfusion h
              · injection h with h; subst h; rfl
            · exact Outcome.noConfusion h
            · exact Outcome.noConfusion h
        · split at h
          · split at h
            · exact Outcome.noConfusion h
            · injection h with h; subst h; rfl
          · exact Outcome.noConfusion h
          · exact Outcome.noConfusion h

/-! ## The arguments are tokens -/

/-- C1 (code at the failing input): on the line `cmd1 arg | cmd2 arg2` the head
is `cmd1` with `[arg]` and its `next` is `cmd2` with `[arg2]`, but `next` and
`redirects` of that second Command are whatever the block returned by `malloc`
held: `parse_command` never writes them, so the chain has exactly two Commands
only when the allocator happened to return zeroed memory. -/
theorem C1_second_command_keeps_block_contents (fresh : command_t) :
    ∃ c1 c2 : command_t,
      parse_command fresh "cmd1 arg | cmd2 arg2".toList command_zero = Outcome.done c1 ∧
      c1.name = "cmd1".toList ∧ c1.args = ["arg".toList] ∧ c1.next = some c2 ∧
      c2.name = "cmd2".toList ∧ c2.args = ["arg2".toList] ∧
      c2.next = fresh.next ∧ c2.redirects = fresh.redirects :=
  ⟨{ command_zero with
      name := "cmd1".toList, args := ["arg".toList], arg_count := 1,
      next := some { fresh with name := "cmd2".toList, args := ["arg2".toList],
                                arg_count := 1 } },
   { fresh with name := "cmd2".toList, args := ["arg2".toList], arg_count := 1 },
   rfl, rfl, rfl, rfl, rfl, rfl, rfl, rfl⟩

/-- C2 (counterexample): `echo ""` has no pipe and no redirection; its one
token after the name is a pair of double quotes, which quote stripping as the
specification words it turns into the empty string, and `parse_command` yields
the argument with both quotes still in place. -/
theorem C2_counterexample :
    ∃ c : command_t,
      parse_command command_zero ("echo ".toList ++ [dquote, dquote]) command_zero =
        Outcome.done c ∧
      c.name = "echo".toList ∧ c.next = none ∧ c.redirects = [none, none, none] ∧
      (spec_tokens ("echo ".toList ++ [dquote, dquote])).tail.map spec_strip_quotes = [[]] ∧
      c.args = [[dquote, dquote]] ∧
      c.args ≠ (spec_tokens ("echo ".toList ++ [dquote, dquote])).tail.map spec_strip_quotes :=
  ⟨{ command_zero with
      name := "echo".toList, args := [[dquote, dquote]], arg_count := 1 },
   rfl, rfl, rfl, rfl, by decide, rfl, by decide⟩

/-- C2 (amended): take a line whose whitespace tokens are a name `n` followed
by tokens `ts`, none of which is `|` or begins with `<` or `>`, each shorter
than 1024 characters, where neither mark is attached to a token: the name
does not end in `?` or `&`, and the last token does not end in `?` and ends
in `&` only if it is `&` itself. `parse_command` on the zeroed struct yields a
single Command (no `next`, no redirect) named `n` whose `args` are, in order,
the tokens of `ts` other than a lone `&`, each without its quotes when it is
longer than two characters and bounded by a matching pair of quotes;
`arg_count` is their number, `auto_complete` is not set and `background` is
set exactly when the line ends in the token `&`. -/
theorem C2_args_are_stripped_tokens (fresh : command_t) (line n : Str)
    (ts : List Str) (htoks : spec_tokens line = n :: ts)
    (hts : ∀ t ∈ ts, t ≠ ['|'] ∧ t.head? ≠ some '<' ∧ t.head? ≠ some '>')
    (hfit : ∀ t ∈ ts, t.length < 1024)
    (hname : n.getLast? ≠ some '?' ∧ n.getLast? ≠ some '&')
    (hmark : ∀ t, ts.getLast? = some t →
      t.getLast? ≠ some '?' ∧ (t.getLast? = some '&' → t = ['&'])) :
    ∃ c : command_t,
      parse_command fresh line command_zero = Outcome.done c ∧
      c.name = n ∧
      c.args = (ts.filter (fun t => decide (t ≠ ['&']))).map spec_strip_long_quotes ∧
      c.arg_count = c.args.length ∧
      c.redirects = [none, none, none] ∧ c.next = none ∧
      c.auto_complete = false ∧
      c.background = decide (ts.getLast? = some ['&']) := by
  rcases line_shape line with hb | ⟨lead, m, trail, items, h1, h2, h3, h4, h5⟩
  · rw [spec_tokens_blank hb] at htoks
    exact absurd htoks (by simp)
  · subst h5
    rw [spec_tokens_line h1 h2 h3 h4] at htoks
    injection htoks with hn hitems
    subst hn
    have hp : ∀ p ∈ items, p.2 ≠ ['|'] := by
      intro p hp1
      have : p.2 ∈ ts := by
        rw [← hitems]
        exact List.mem_map_of_mem _ hp1
      exact (hts _ this).1
    have hfits : fits items := by
      intro p hp1
      have : p.2 ∈ ts := by
        rw [← hitems]
        exact List.mem_map_of_mem _ hp1
      exact hfit _ this
    have hnorm : ∀ t ∈ items.map Prod.snd, t.head? ≠ some '<' ∧ t.head? ≠ some '>' := by
      intro t ht
      rw [hitems] at ht
      exact (hts t ht).2
    have hstrip : strip_quotes = spec_strip_long_quotes := funext strip_quotes_eq_long
    have hlast := last_token_char h2.1 h3
    rw [hitems] at hlast
    have hq : (m ++ words items).getLast? ≠ some '?' := by
      rw [hlast]
      cases hl : ts.getLast? with
      | none =>
        rw [List.getLast?_eq_none_iff] at hl
        subst hl
        simpa using hname.1
      | some t =>
        have hcons : (m :: ts).getLast? = ts.getLast? := by
          cases ts with
          | nil => simp at hl
          | cons x xs => simp
        rw [hcons, hl]
        simpa using (hmark t hl).1
    have hamp : (m ++ words items).getLast? = some '&' ↔ ts.getLast? = some ['&'] := by
      rw [hlast]
      cases hl : ts.getLast? with
      | none =>
        rw [List.getLast?_eq_none_iff] at hl
        subst hl
        constructor
        · intro h
          exact absurd (by simpa using h) hname.2
        · intro h
          simp at h
      | some t =>
        have hcons : (m :: ts).getLast? = ts.getLast? := by
          cases ts with
          | nil => simp at hl
          | cons x xs => simp
        rw [hcons, hl]
        constructor
        · intro h
          rw [(hmark t hl).2 (by simpa using h)]
        · intro h
          injection h with h
          subst h
          rfl
    obtain ⟨t1, t2, t3, t4, t5⟩ := tokens_result_fields m (items.map Prod.snd) command_zero
    obtain ⟨e1, e2, e3, e4, e5⟩ := set_flags_fields (m ++ words items)
      (tokens_result m (items.map Prod.snd) command_zero)
    have hres := tokens_result_normal m hnorm command_zero
    refine ⟨_, parse_command_segment fresh h1 h2 h3 hfits hp h4 command_zero,
      ?_, ?_, ?_, ?_, ?_, ?_, ?_⟩
    · rw [e1, t1]
    · rw [e2, hres, hitems, hstrip]
    · rw [e3, e2, hres, hitems]
      simp
    · rw [e4, hres]
      rfl
    · rw [e5, t2]
      rfl
    · rw [set_flags_auto_complete, t4, decide_eq_false hq]
      rfl
    · rw [set_flags_background, t3]
      simp only [command_zero, Bool.false_or]
      exact decide_eq_decide.mpr hamp

/-- C2 (witness): the amended statement at `echo 'hi' "" there &`, where the
quoted `hi` loses its quotes, the pair of double quotes stays and the marker
is not an argument. -/
theorem C2_args_are_stripped_tokens_witness :
    ∃ c : command_t,
      parse_command command_zero ("echo ".toList ++ [squote] ++ "hi".toList ++ [squote] ++
        " ".toList ++ [dquote, dquote] ++ " there &".toList) command_zero = Outcome.done c ∧
      c.name = "echo".toList ∧
      c.args = ((([squote] ++ "hi".toList ++ [squote]) :: [dquote, dquote] :: "there".toList ::
        ["&".toList]).filter (fun t => decide (t ≠ ['&']))).map spec_strip_long_quotes ∧
      c.arg_count = c.args.length ∧
      c.redirects = [none, none, none] ∧ c.next = none ∧
      c.auto_complete = false ∧
      c.background = decide ((([squote] ++ "hi".toList ++ [squote]) :: [dquote, dquote] ::
        "there".toList :: ["&".toList]).getLast? = some ['&']) :=
  C2_args_are_stripped_tokens command_zero _ "echo".toList
    (([squote] ++ "hi".toList ++ [squote]) :: [dquote, dquote] :: "there".toList ::
      ["&".toList]) (by decide) (by decide) (by decide) (by decide) (by decide)

/-- C4 (code at the failing input): on `sleep 5&` the `background` flag is
set and the `&` stays inside the only argument, `5&`. -/
theorem C4_adjacent_ampersand_stays_in_arg (fresh : command_t) :
    parse_command fresh "sleep 5&".toList command_zero =
      Outcome.done
        { command_zero with name := "sleep".toList, background := true,
                            args := ["5&".toList], arg_count := 1 } :=
  rfl

/-- C5 (counterexample): on `echo "a b" c` the quoted text is cut at its
space; the arguments are `"a`, `b"` and `c`, and `a b` is not among them. -/
theorem C5_counterexample :
    ∃ c : command_t,
      parse_command command_zero
        ("echo ".toList ++ [dquote] ++ "a b".toList ++ [dquote] ++ " c".toList)
        command_zero = Outcome.done c ∧
      c.args = [dquote :: "a".toList, "b".toList ++ [dquote], "c".toList] ∧
      "a b".toList ∉ c.args :=
  ⟨{ command_zero with
      name := "echo".toList,
      args := [dquote :: "a".toList, "b".toList ++ [dquote], "c".toList], arg_count := 3 },
   rfl, rfl, by decide⟩

/-- C5 (amended): a quoted text with internal whitespace is cut at that
whitespace like any other text. For a matching pair of double or single
quotes `q` around plain pieces `w1 ... wL` separated by whitespace, among
plain tokens, every token shorter than 1024 characters, the arguments are the
tokens before it, then `q w1` with the opening quote kept, the middle pieces,
`wL q` with the closing quote kept, and the tokens after it. -/
theorem C5_quoted_text_is_cut_at_whitespace (fresh : command_t) (q : Char)
    (lead n sep w1 sepL wL trail : Str) (pre mid post : List (Str × Str))
    (hq : q = dquote ∨ q = squote) (hl : blank lead) (hn : token n)
    (hpre : spaced pre) (hfpre : fits pre) (hprep : ∀ p ∈ pre, plain p.2)
    (hsep : sep ≠ [] ∧ blank sep) (hw1 : plain w1) (hfw1 : (q :: w1).length < 1024)
    (hmid : spaced mid) (hfmid : fits mid) (hmidp : ∀ p ∈ mid, plain p.2)
    (hsepL : sepL ≠ [] ∧ blank sepL) (hwL : plain wL) (hfwL : (wL ++ [q]).length < 1024)
    (hpost : spaced post) (hfpost : fits post) (hpostp : ∀ p ∈ post, plain p.2)
    (ht : blank trail) :
    ∃ c : command_t,
      parse_command fresh
        (lead ++ (n ++ words pre ++ sep ++ ([q] ++ (w1 ++ words mid ++ sepL ++ wL) ++ [q])
          ++ words post) ++ trail) command_zero = Outcome.done c ∧
      c.args = pre.map Prod.snd ++ [q :: w1] ++ mid.map Prod.snd ++ [wL ++ [q]]
        ++ post.map Prod.snd ∧
      c.arg_count = c.args.length := by
  have hitems : spaced (pre ++ [(sep, q :: w1)] ++ mid ++ [(sepL, wL ++ [q])] ++ post) :=
    spaced_append (spaced_append (spaced_append (spaced_append hpre
      (spaced_singleton hsep (kept_open_quote hq hw1).1)) hmid)
      (spaced_singleton hsepL (kept_close_quote hq hwL).1)) hpost
  have hfits : fits (pre ++ [(sep, q :: w1)] ++ mid ++ [(sepL, wL ++ [q])] ++ post) :=
    fits_append (fits_append (fits_append (fits_append hfpre (fits_singleton hfw1)) hfmid)
      (fits_singleton hfwL)) hfpost
  have hkept : ∀ t ∈ (pre ++ [(sep, q :: w1)] ++ mid ++ [(sepL, wL ++ [q])] ++ post).map Prod.snd,
      kept t := by
    intro t ht1
    obtain ⟨p, hp1, rfl⟩ := List.mem_map.mp ht1
    simp only [List.mem_append, List.mem_singleton] at hp1
    rcases hp1 with (((h | h) | h) | h) | h
    · exact plain_kept (hprep p h)
    · subst h
      exact kept_open_quote hq hw1
    · exact plain_kept (hmidp p h)
    · subst h
      exact kept_close_quote hq hwL
    · exact plain_kept (hpostp p h)
  have hline : n ++ words pre ++ sep ++ ([q] ++ (w1 ++ words mid ++ sepL ++ wL) ++ [q])
      ++ words post =
      n ++ words (pre ++ [(sep, q :: w1)] ++ mid ++ [(sepL, wL ++ [q])] ++ post) := by
    simp [words_append, words]
  rw [hline]
  refine ⟨_, parse_command_segment fresh hl hn hitems hfits
    (fun p hp => (hkept p.2 (List.mem_map_of_mem _ hp)).2.1) ht command_zero, ?_, ?_⟩
  · rw [(set_flags_fields _ _).2.1, tokens_result_kept n hkept]
    simp
  · rw [(set_flags_fields _ _).2.1, (set_flags_fields _ _).2.2.1, tokens_result_kept n hkept]

/-- C5 (witness): `echo "a b" c` gives the arguments `"a`, `b"`, `c`. -/
theorem C5_quoted_text_is_cut_at_whitespace_witness :
    ∃ c : command_t,
      parse_command command_zero
        ([] ++ ("echo".toList ++ words [] ++ " ".toList ++
          ([dquote] ++ ("a".toList ++ words [] ++ " ".toList ++ "b".toList) ++ [dquote])
          ++ words [(" ".toList, "c".toList)]) ++ []) command_zero = Outcome.done c ∧
      c.args = ([] : List (Str × Str)).map Prod.snd ++ [dquote :: "a".toList] ++
        ([] : List (Str × Str)).map Prod.snd ++ ["b".toList ++ [dquote]] ++
        [(" ".toList, "c".toList)].map Prod.snd ∧
      c.arg_count = c.args.length :=
  C5_quoted_text_is_cut_at_whitespace command_zero dquote [] "echo".toList " ".toList
    "a".toList " ".toList "b".toList [] [] [] [(" ".toList, "c".toList)]
    (Or.inl rfl) (by decide) (by decide) (by decide) (by decide) (by decide) (by decide)
    (by decide) (by decide) (by decide) (by decide) (by decide) (by decide) (by decide)
    (by decide) (by decide) (by decide) (by decide) (by decide)

/-- C6 (counterexample): on `sort < in.txt > out.txt` both redirect targets
are the empty string, not `in.txt` and `out.txt`, and the two filenames are
arguments. -/
theorem C6_counterexample :
    ∃ c : command_t,
      parse_command command_zero "sort < in.txt > out.txt".toList command_zero =
        Outcome.done c ∧
      c.redirects = [some [], some [], none] ∧
      c.args = ["in.txt".toList, "out.txt".toList] ∧
      c.redirects.get? 0 ≠ some (some "in.txt".toList) ∧
      c.redirects.get? 1 ≠ some (some "out.txt".toList) ∧ c.args ≠ [] :=
  ⟨{ command_zero with
      name := "sort".toList, args := ["in.txt".toList, "out.txt".toList], arg_count := 2,
      redirects := [some [], some [], none] },
   rfl, rfl, rfl, by decide, by decide, by decide⟩

/-- C6 (amended): for filenames of fewer than 1023 characters, with each
operator attached to its filename, the line `n <f >g` yields
`redirect_in = f`, `redirect_out = g` and no argument; with the operators
apart from the filenames, `n < f > g`, both redirect targets are the empty
string and `f`, `g` are the two arguments. -/
theorem C6_attached_redirections (fresh : command_t)
    (lead n s1 s2 s3 s4 f g trail : Str) (hl : blank lead) (hn : token n)
    (h1 : s1 ≠ [] ∧ blank s1) (h2 : s2 ≠ [] ∧ blank s2) (h3 : s3 ≠ [] ∧ blank s3)
    (h4 : s4 ≠ [] ∧ blank s4) (hf : plain f) (hg : plain g)
    (hflen : f.length < 1023) (hglen : g.length < 1023) (ht : blank trail) :
    (∃ c : command_t,
      parse_command fresh (lead ++ (n ++ s1 ++ '<' :: f ++ s2 ++ '>' :: g) ++ trail)
        command_zero = Outcome.done c ∧
      c.name = n ∧ c.redirects = [some f, some g, none] ∧ c.args = [] ∧ c.next = none) ∧
    (∃ c : command_t,
      parse_command fresh
        (lead ++ (n ++ s1 ++ ['<'] ++ s2 ++ f ++ s3 ++ ['>'] ++ s4 ++ g) ++ trail)
        command_zero = Outcome.done c ∧
      c.name = n ∧ c.redirects = [some [], some [], none] ∧ c.args = [f, g] ∧
      c.next = none) := by
  have hgh : (1 : Nat) = 1 → g.head? ≠ some '>' := by
    intro _
    obtain ⟨x, xs, rfl, _, _, _, _, g5, _⟩ := plain_head hg
    simpa using g5
  have hnil : (1 : Nat) = 1 → ([] : Str).head? ≠ some '>' := by
    intro _
    simp
  have hfs : ∀ x ∈ f, is_splitter x = false := (plain_token hf).2
  have hgs : ∀ x ∈ g, is_splitter x = false := (plain_token hg).2
  have hno : ∀ x ∈ ([] : Str), is_splitter x = false := fun _ h => absurd h (List.not_mem_nil _)
  constructor
  · have hitems : spaced [(s1, operator_token 0 f), (s2, operator_token 1 g)] :=
      spaced_append (spaced_singleton h1 (operator_token_token hfs))
        (spaced_singleton h2 (operator_token_token hgs))
    have hfits : fits [(s1, operator_token 0 f), (s2, operator_token 1 g)] :=
      fits_append (a := [(s1, operator_token 0 f)])
        (fits_singleton (by simp only [operator_token, List.length_cons]; omega))
        (fits_singleton (by simp only [operator_token, List.length_cons]; omega))
    have hbar : ∀ p ∈ [(s1, operator_token 0 f), (s2, operator_token 1 g)], p.2 ≠ ['|'] := by
      intro p hp
      simp only [List.mem_cons, List.mem_singleton, List.not_mem_nil, or_false] at hp
      rcases hp with rfl | rfl
      · exact operator_token_ne_bar 0 f
      · exact operator_token_ne_bar 1 g
    have hline : n ++ s1 ++ '<' :: f ++ s2 ++ '>' :: g =
        n ++ words [(s1, operator_token 0 f), (s2, operator_token 1 g)] := by
      simp [words, operator_token]
    rw [hline]
    refine ⟨_, parse_command_segment fresh hl hn hitems hfits hbar ht command_zero, ?_⟩
    obtain ⟨e1, e2, _, e4, e5⟩ := set_flags_fields
      (n ++ words [(s1, operator_token 0 f), (s2, operator_token 1 g)])
      (tokens_result n ([(s1, operator_token 0 f), (s2, operator_token 1 g)].map Prod.snd)
        command_zero)
    rw [e1, e2, e4, e5]
    simp only [tokens_result, finish, List.map_cons, List.map_nil, parse_tokens_cons,
      parse_tokens_nil, parse_arg_operator (Nat.zero_le 2) (fun h => absurd h (by decide)),
      parse_arg_operator (by decide : 1 ≤ 2) hgh]
    simp [command_zero]
  · have hitems : spaced [(s1, operator_token 0 []), (s2, f), (s3, operator_token 1 []),
        (s4, g)] :=
      spaced_append (spaced_singleton h1 (operator_token_token hno))
        (spaced_append (spaced_singleton h2 (plain_token hf))
          (spaced_append (spaced_singleton h3 (operator_token_token hno))
            (spaced_singleton h4 (plain_token hg))))
    have hfits : fits [(s1, operator_token 0 []), (s2, f), (s3, operator_token 1 []),
        (s4, g)] := by
      intro p hp
      simp only [List.mem_cons, List.mem_singleton, List.not_mem_nil, or_false] at hp
      rcases hp with rfl | rfl | rfl | rfl
      · simp [operator_token]
      · show f.length < 1024
        omega
      · simp [operator_token]
      · show g.length < 1024
        omega
    have hbar : ∀ p ∈ [(s1, operator_token 0 []), (s2, f), (s3, operator_token 1 []), (s4, g)],
        p.2 ≠ ['|'] := by
      intro p hp
      simp only [List.mem_cons, List.mem_singleton, List.not_mem_nil, or_false] at hp
      rcases hp with rfl | rfl | rfl | rfl
      · exact operator_token_ne_bar 0 []
      · exact plain_ne_bar hf
      · exact operator_token_ne_bar 1 []
      · exact plain_ne_bar hg
    have hline : n ++ s1 ++ ['<'] ++ s2 ++ f ++ s3 ++ ['>'] ++ s4 ++ g =
        n ++ words [(s1, operator_token 0 []), (s2, f), (s3, operator_token 1 []), (s4, g)] := by
      simp [words, operator_token]
    rw [hline]
    refine ⟨_, parse_command_segment fresh hl hn hitems hfits hbar ht command_zero, ?_⟩
    obtain ⟨e1, e2, _, e4, e5⟩ := set_flags_fields
      (n ++ words [(s1, operator_token 0 []), (s2, f), (s3, operator_token 1 []), (s4, g)])
      (tokens_result n ([(s1, operator_token 0 []), (s2, f), (s3, operator_token 1 []),
        (s4, g)].map Prod.snd) command_zero)
    rw [e1, e2, e4, e5]
    simp only [tokens_result, finish, List.map_cons, List.map_nil, parse_tokens_cons,
      parse_tokens_nil, parse_arg_operator (Nat.zero_le 2) (fun h => absurd h (by decide)),
      parse_arg_operator (by decide : 1 ≤ 2) hnil, parse_arg_plain hf, parse_arg_plain hg]
    simp [command_zero]

/-- C6 (witness): `sort <in.txt >out.txt` against `sort < in.txt > out.txt`. -/
theorem C6_attached_redirections_witness :
    (∃ c : command_t,
      parse_command command_zero ([] ++ ("sort".toList ++ " ".toList ++
        '<' :: "in.txt".toList ++ " ".toList ++ '>' :: "out.txt".toList) ++ [])
        command_zero = Outcome.done c ∧
      c.name = "sort".toList ∧
      c.redirects = [some "in.txt".toList, some "out.txt".toList, none] ∧ c.args = [] ∧
      c.next = none) ∧
    (∃ c : command_t,
      parse_command command_zero
        ([] ++ ("sort".toList ++ " ".toList ++ ['<'] ++ " ".toList ++ "in.txt".toList ++
          " ".toList ++ ['>'] ++ " ".toList ++ "out.txt".toList) ++ [])
        command_zero = Outcome.done c ∧
      c.name = "sort".toList ∧ c.redirects = [some [], some [], none] ∧
      c.args = ["in.txt".toList, "out.txt".toList] ∧ c.next = none) :=
  C6_attached_redirections command_zero [] "sort".toList " ".toList " ".toList " ".toList
    " ".toList "in.txt".toList "out.txt".toList [] (by decide) (by decide) (by decide)
    (by decide) (by decide) (by decide) (by decide) (by decide) (by decide) (by decide)
    (by decide)

/-- C7 (code at the failing input): on the empty line, and on a line of
spaces and tabs, `strtok` returns `NULL` and `strlen(pch)` is evaluated before
the `pch == NULL` test: no Command is produced. -/
theorem C7_blank_line_dereferences_null (fresh : command_t) :
    parse_command fresh [] command_zero = Outcome.fault Fault.null_deref ∧
    parse_command fresh " \t  ".toList command_zero = Outcome.fault Fault.null_deref :=
  ⟨rfl, rfl⟩

/-- C8 (code at the failing input): on `ls |` the terminator after the `|` is
overwritten with a space and the scan for the next Command leaves the line: no
Pipeline is returned. -/
theorem C8_trailing_pipe_leaves_the_line (fresh : command_t) :
    parse_command fresh "ls |".toList command_zero = Outcome.fault Fault.past_end :=
  rfl

/-- C9 (code at the failing input): take the request parsed from a line
`c p?`, where `c` is a command name followed by any tokens that are neither
`|` nor redirections and `p` is a non-empty partial `p` (no whitespace, not
beginning with `<` or `>`), and a listing `D` of the current directory in
which more than 1024 entries have `p` as a prefix. The line parses, and
`process_command` copies the 1025th match past the last row of
`suggestion_list[1024][256]`: no Suggestion Set is produced. -/
theorem C9_more_matches_than_rows (fresh : command_t) (os : os_t) (st : shell_state)
    (D : List Str) (lead n sep p trail : Str) (items : List (Str × Str))
    (hl : blank lead) (hn : token n) (hitems : spaced items) (hfit : fits items)
    (hnorm : ∀ q ∈ items, q.2 ≠ ['|'] ∧ q.2.head? ≠ some '<' ∧ q.2.head? ≠ some '>')
    (hsep : sep ≠ [] ∧ blank sep) (hp : token p) (hp1 : p.head? ≠ some '<')
    (hp2 : p.head? ≠ some '>') (hpfit : (p ++ ['?']).length < 1024) (ht : blank trail)
    (hD : os.opendir os.getcwd = some D) (hcwd : os.getcwd.length < 250)
    (hrows : 1024 < (D.filter (fun e => p.isPrefixOf e)).length) :
    ∃ c : command_t,
      parse_command fresh (lead ++ (n ++ words items ++ sep ++ p ++ ['?']) ++ trail)
        command_zero = Outcome.done c ∧
      process_command os c st = Outcome.fault Fault.overflow := by
  obtain ⟨q1, q2, q3, q4, q5, q6⟩ := partial_is_normal hp hp1 hp2
  have hall : spaced (items ++ [(sep, p ++ ['?'])]) :=
    spaced_append hitems (spaced_singleton hsep q1)
  have hfall : fits (items ++ [(sep, p ++ ['?'])]) :=
    fits_append hfit (fits_singleton hpfit)
  have hbar : ∀ q ∈ items ++ [(sep, p ++ ['?'])], q.2 ≠ ['|'] := by
    intro q hq
    rcases List.mem_append.mp hq with h | h
    · exact (hnorm q h).1
    · simp only [List.mem_singleton] at h
      subst h
      exact q2
  have hnormal : ∀ t ∈ (items ++ [(sep, p ++ ['?'])]).map Prod.snd,
      t.head? ≠ some '<' ∧ t.head? ≠ some '>' := by
    intro t ht1
    obtain ⟨q, hq, rfl⟩ := List.mem_map.mp ht1
    rcases List.mem_append.mp hq with h | h
    · exact (hnorm q h).2
    · simp only [List.mem_singleton] at h
      subst h
      exact ⟨q4, q5⟩
  have hline : n ++ words items ++ sep ++ p ++ ['?'] =
      n ++ words (items ++ [(sep, p ++ ['?'])]) := by
    simp [words_append, words]
  have hlast : (n ++ words (items ++ [(sep, p ++ ['?'])])).getLast? = some '?' := by
    rw [← hline]
    simp
  rw [hline]
  have hparse := parse_command_segment fresh hl hn hall hfall hbar ht command_zero
  obtain ⟨e1, e2, e3, e4, e5⟩ := set_flags_fields
    (n ++ words (items ++ [(sep, p ++ ['?'])]))
    (tokens_result n ((items ++ [(sep, p ++ ['?'])]).map Prod.snd) command_zero)
  have hres := tokens_result_normal n hnormal command_zero
  have hover := process_command_file_completion_overflow os
    (set_flags (n ++ words (items ++ [(sep, p ++ ['?'])]))
      (tokens_result n ((items ++ [(sep, p ++ ['?'])]).map Prod.snd) command_zero))
    st D (((items.map Prod.snd).filter (fun t => decide (t ≠ ['&']))).map strip_quotes) p
    (by rw [set_flags_auto_complete, hlast]; simp)
    (by rw [e5, hres]; rfl)
    (by rw [e4, hres]; rfl)
    (by rw [e3, e2, hres]; simp)
    (by
      rw [e2, hres]
      simp only [List.map_append, List.filter_append, List.map_cons, List.map_nil]
      have : List.filter (fun t => decide (t ≠ ['&'])) [p ++ ['?']] = [p ++ ['?']] := by
        simp [q3]
      rw [this]
      simp [q6])
    hD hcwd hrows
  exact ⟨_, hparse, hover⟩

/-- C9 (witness): `cat rep?` in a directory that lists 1025 times a name
beginning with `rep`. -/
theorem C9_more_matches_than_rows_witness :
    ∃ c : command_t,
      parse_command command_zero
        ([] ++ ("cat".toList ++ words [] ++ " ".toList ++ "rep".toList ++ ['?']) ++ [])
        command_zero = Outcome.done c ∧
      process_command
        { getcwd := "/home".toList,
          opendir := fun _ => some (List.replicate 1025 "report.txt".toList),
          chdir := fun _ => none } c
        { suggestion_list := [], auto_complete_command := [], out := [],
          forks := 0, waits := 0, chdirs := [] } = Outcome.fault Fault.overflow :=
  C9_more_matches_than_rows command_zero _ _
    (List.replicate 1025 "report.txt".toList)
    [] "cat".toList " ".toList "rep".toList [] []
    (by decide) (by decide) (by decide) (by decide) (by decide) (by decide) (by decide)
    (by decide) (by decide) (by decide) (by decide) rfl (by decide)
    (by rw [List.filter_replicate, if_pos (by decide), List.length_replicate]; decide)

/-- C10: for a Command with name `n` and arguments `a0 ... a(k-1)`, the
vector built in the child of `process_command` is `[n, a0, ..., a(k-1), NULL]`,
of length `k + 2`, whatever `realloc` left in the two new slots, and
`arg_count` becomes `k + 2`; the rebuild of a later stage in
`execute_pipeline` gives the same result. -/
theorem C10_argument_vector (c : command_t) (junk1 junk2 : Option Str)
    (h : c.arg_count = c.args.length) :
    process_command_rebuild c junk1 junk2 =
      (c.args.length + 2, some c.name :: c.args.map some ++ [none]) ∧
    (process_command_rebuild c junk1 junk2).2.length = c.args.length + 2 ∧
    execute_pipeline_rebuild c junk1 junk2 = process_command_rebuild c junk1 junk2 := by
  have e : process_command_rebuild c junk1 junk2 =
      (c.args.length + 2, some c.name :: c.args.map some ++ [none]) := by
    unfold process_command_rebuild
    simp only [h, Nat.add_sub_cancel]
    rw [show c.args.length + 2 - 1 = c.args.length + 1 by omega, rebuild_eq]
  refine ⟨e, ?_, rfl⟩
  rw [e]
  simp

/-- C10 (witness): `ls -l x` gives `[ls, -l, x, NULL]`. -/
theorem C10_argument_vector_witness :
    process_command_rebuild
        { command_zero with name := "ls".toList, args := ["-l".toList, "x".toList],
                            arg_count := 2 } (some "junk".toList) none =
      (["-l".toList, "x".toList].length + 2,
        some "ls".toList :: ["-l".toList, "x".toList].map some ++ [none]) ∧
    (process_command_rebuild
        { command_zero with name := "ls".toList, args := ["-l".toList, "x".toList],
                            arg_count := 2 } (some "junk".toList) none).2.length =
      ["-l".toList, "x".toList].length + 2 ∧
    execute_pipeline_rebuild
        { command_zero with name := "ls".toList, args := ["-l".toList, "x".toList],
                            arg_count := 2 } (some "junk".toList) none =
      process_command_rebuild
        { command_zero with name := "ls".toList, args := ["-l".toList, "x".toList],
                            arg_count := 2 } (some "junk".toList) none :=
  C10_argument_vector
    { command_zero with name := "ls".toList, args := ["-l".toList, "x".toList],
                        arg_count := 2 } (some "junk".toList) none rfl

/-- C11 (counterexample): on the Command the line `cd`
parses to (name `cd`, no argument, not an autocomplete request)
`process_command` makes no `chdir` call and calls `fork` once and `wait` once. -/
theorem C11_counterexample :
    parse_command command_zero "cd".toList command_zero =
      Outcome.done { command_zero with name := "cd".toList } ∧
    process_command ⟨[], fun _ => none, fun _ => none⟩
        { command_zero with name := "cd".toList } ⟨[], [], [], 0, 0, []⟩ =
      Outcome.done (return_codes.SUCCESS, ⟨[], [], [], 1, 1, []⟩) :=
  ⟨rfl, rfl⟩

/-- C11 as amended: for every Command named `cd` that is not an autocomplete
request and has at least one argument, whatever the operating system answers
and whatever the state of the shell, `process_command` returns `SUCCESS`
after one `chdir` call in the shell process on the first argument, without a
`fork` or `wait` call; it prints nothing when the call succeeds and the line
`-shellgibi: cd: ` followed by the error description when it fails. -/
theorem C11_cd_changes_directory_in_the_shell (os : os_t) (c : command_t)
    (st : shell_state) (target : Str) (rest : List Str)
    (hac : c.auto_complete = false) (hname : c.name = "cd".toList)
    (hargs : c.args = target :: rest) (hcount : c.arg_count = c.args.length) :
    ∃ st1, process_command os c st = Outcome.done (return_codes.SUCCESS, st1) ∧
      st1.chdirs = st.chdirs ++ [target] ∧
      st1.forks = st.forks ∧ st1.waits = st.waits ∧
      st1.suggestion_list = st.suggestion_list ∧
      st1.auto_complete_command = st.auto_complete_command ∧
      (os.chdir target = none → st1.out = st.out) ∧
      (∀ err, os.chdir target = some err →
        st1.out = st.out ++ "-shellgibi: cd: ".toList ++ err ++ ['\n']) := by
  have hpos : 0 < c.arg_count := by rw [hcount, hargs]; simp
  have h0 : c.args.getD 0 [] = target := by rw [hargs]; rfl
  refine ⟨_, process_command_cd os c st hac hname hpos, ?_, rfl, rfl, rfl, rfl, ?_, ?_⟩
  · show st.chdirs ++ [c.args.getD 0 []] = _
    rw [h0]
  · intro h
    show (match os.chdir (c.args.getD 0 []) with
      | none => st.out
      | some err => st.out ++ "-shellgibi: cd: ".toList ++ err ++ ['\n']) = _
    rw [h0, h]
  · intro err h
    show (match os.chdir (c.args.getD 0 []) with
      | none => st.out
      | some err => st.out ++ "-shellgibi: cd: ".toList ++ err ++ ['\n']) = _
    rw [h0, h]

/-- C11 (witness): the Command of the line `cd /nowhere` when `chdir` fails
with `No such file or directory`. -/
theorem C11_cd_changes_directory_in_the_shell_witness :
    ∃ st1, process_command ⟨[], fun _ => none, fun _ => some "No such file or directory".toList⟩
        { command_zero with name := "cd".toList, args := ["/nowhere".toList], arg_count := 1 }
        ⟨[], [], [], 0, 0, []⟩ = Outcome.done (return_codes.SUCCESS, st1) ∧
      st1.chdirs = [] ++ ["/nowhere".toList] ∧
      st1.forks = 0 ∧ st1.waits = 0 ∧
      st1.suggestion_list = [] ∧
      st1.auto_complete_command = [] ∧
      ((fun _ => some "No such file or directory".toList : Str → Option Str) "/nowhere".toList = none →
        st1.out = []) ∧
      (∀ err, (fun _ => some "No such file or directory".toList : Str → Option Str)
          "/nowhere".toList = some err →
        st1.out = [] ++ "-shellgibi: cd: ".toList ++ err ++ ['\n']) :=
  C11_cd_changes_directory_in_the_shell
    ⟨[], fun _ => none, fun _ => some "No such file or directory".toList⟩
    { command_zero with name := "cd".toList, args := ["/nowhere".toList], arg_count := 1 }
    ⟨[], [], [], 0, 0, []⟩ "/nowhere".toList [] rfl rfl rfl rfl

/-- C12: whatever was typed before it on the line, as long as these are
ordinary keystrokes and the buffer is not full, the end-of-transmission
character (code 4) makes `prompt`, entered with the terminal line-buffered and
echoing, return `EXIT` with `ICANON` and `ECHO` still cleared: the mode at
return is not the mode captured on entry. -/
theorem C12_exit_leaves_the_terminal_raw (fresh : command_t) (show_prompt oldbuf : Str)
    (typed keys : List Char) (command : command_t)
    (htyped : ∀ c ∈ typed, ordinary_key c) (hlen : typed.length + 1 < 4095) :
    prompt fresh show_prompt ⟨true, true⟩ oldbuf (typed ++ Char.ofNat 4 :: keys) command =
      prompt_outcome.returned return_codes.EXIT ⟨false, false⟩ oldbuf
        (show_prompt ++ typed ++ [Char.ofNat 4]) command ∧
    (⟨false, false⟩ : termios) ≠ ⟨true, true⟩ := by
  refine ⟨?_, by decide⟩
  unfold prompt
  simp only
  rw [prompt_loop_exit oldbuf keys typed [] show_prompt htyped (by simpa using hlen)]

/-- C12 (witness): the keystrokes `l`, `s`, Ctrl+D. -/
theorem C12_exit_leaves_the_terminal_raw_witness :
    prompt command_zero "$ ".toList ⟨true, true⟩ []
        ("ls".toList ++ Char.ofNat 4 :: []) command_zero =
      prompt_outcome.returned return_codes.EXIT ⟨false, false⟩ []
        ("$ ".toList ++ "ls".toList ++ [Char.ofNat 4]) command_zero ∧
    (⟨false, false⟩ : termios) ≠ ⟨true, true⟩ :=
  C12_exit_leaves_the_terminal_raw command_zero "$ ".toList [] "ls".toList [] command_zero
    (by decide) (by decide)

/-- C13: for every Suggestion Set, what is printed is a newline followed, for
one candidate, by the candidate and a newline, and otherwise by the rows of
the listing and a final newline: every candidate in order followed by a tab,
five to a row, a newline after each row of five. The rows hold all the
candidates in order, none is empty or longer than five, and all but the last
hold exactly five. Every autocomplete request on which `process_command`
returns, in any of the three completion branches, has appended exactly this
printing of the Suggestion Set it leaves. -/
theorem C13_listing_of_suggestions (os : os_t) (c : command_t) (st : shell_state)
    (r : return_codes × shell_state)
    (hac : c.auto_complete = true) (h : process_command os c st = Outcome.done r) :
    r.2.out = st.out ++ print_suggestions r.2.suggestion_list ∧
    (∀ s : Str, print_suggestions [s] = ['\n'] ++ s ++ ['\n']) ∧
    (∀ sl : List Str, sl.length ≠ 1 →
      print_suggestions sl = ['\n'] ++ spec_listing sl ++ ['\n'] ∧
      (spec_rows sl).flatten = sl ∧
      (∀ row ∈ spec_rows sl, 0 < row.length ∧ row.length ≤ 5) ∧
      (∀ row ∈ (spec_rows sl).dropLast, row.length = 5)) :=
  ⟨process_command_aux_prints os _ c st r hac h, print_suggestions_single,
   fun sl hsl => ⟨print_suggestions_rows sl hsl, spec_rows_shape sl⟩⟩

/-- C13 (witness): the request `m?` when every directory of the search path
lists `mv` and `ls`: seven candidates, printed as a row of five and a row of
two. -/
theorem C13_listing_of_suggestions_witness :
    process_command ⟨[], fun _ => some ["mv".toList, "ls".toList], fun _ => none⟩
        { command_zero with name := "m?".toList, auto_complete := true }
        ⟨[], [], "$ m?".toList, 0, 0, []⟩ =
      Outcome.done (return_codes.SUCCESS,
        ⟨["mv".toList, "mv".toList, "mv".toList, "mv".toList, "myjobs".toList,
          "mybg".toList, "myfg".toList], "m".toList,
         "$ m?\nmv\tmv\tmv\tmv\tmyjobs\t\nmybg\tmyfg\t\n".toList, 0, 0, []⟩) ∧
    ("$ m?\nmv\tmv\tmv\tmv\tmyjobs\t\nmybg\tmyfg\t\n".toList =
        "$ m?".toList ++ print_suggestions
          ["mv".toList, "mv".toList, "mv".toList, "mv".toList, "myjobs".toList,
            "mybg".toList, "myfg".toList] ∧
      (∀ s : Str, print_suggestions [s] = ['\n'] ++ s ++ ['\n']) ∧
      (∀ sl : List Str, sl.length ≠ 1 →
        print_suggestions sl = ['\n'] ++ spec_listing sl ++ ['\n'] ∧
        (spec_rows sl).flatten = sl ∧
        (∀ row ∈ spec_rows sl, 0 < row.length ∧ row.length ≤ 5) ∧
        (∀ row ∈ (spec_rows sl).dropLast, row.length = 5))) :=
  ⟨rfl,
   C13_listing_of_suggestions
     ⟨[], fun _ => some ["mv".toList, "ls".toList], fun _ => none⟩
     { command_zero with name := "m?".toList, auto_complete := true }
     ⟨[], [], "$ m?".toList, 0, 0, []⟩
     (return_codes.SUCCESS,
        ⟨["mv".toList, "mv".toList, "mv".toList, "mv".toList, "myjobs".toList,
          "mybg".toList, "myfg".toList], "m".toList,
         "$ m?\nmv\tmv\tmv\tmv\tmyjobs\t\nmybg\tmyfg\t\n".toList, 0, 0, []⟩)
     rfl rfl⟩

end ShellGibi
